import Mathlib

/-!
# async_hurl: asynchronous dispatch around a synchronous HTTP client

Shallow embedding of `src/async_hurl.cpp` and `src/async_hurl.h`.

* `httpresponse`, `client`, `failure`, `transport` stand for the declarations of
  `hurl.h`, which the wrapper includes and which is not among the sources.
* `async_client` is the class of `async_hurl.h` with its three data members.
* `async_request_thread` is the thread procedure of `async_hurl.cpp`.
* `System` adds what lives outside the class: the started worker threads, the
  allocator that hands out callback addresses, and two history lists.

A thread procedure runs to its end as one step. A call of `sync` is interleaved
with finishing workers at each test of its loop condition (`drain.arriving`);
in a `step` of the `System` no worker finishes while `sync` runs. The data race
on the unsynchronized queue that the source comments on is not part of this
model.
-/

namespace hurl

/-! ## Declarations of the wrapped library -/

/-- Modelled from the spec: `hurl::httpresponse` of the missing `hurl.h`, a status code and a body. -/
structure httpresponse where
  status : Int
  body : String
  deriving DecidableEq, Repr

/-- Modelled from the spec: `hurl::httpparams` of the missing `hurl.h`, ordered key-value pairs. -/
abbrev httpparams := List (String × String)

/-- Modelled from the spec: `hurl::client` of the missing `hurl.h`, as far as the wrapper uses it:
the base configuration read by `base()` and the session cookie read by `cookie()`. -/
structure client where
  base : String
  cookie : String
  deriving DecidableEq, Repr

/-- Modelled from the spec: the constructor `hurl::client(base)` of the missing `hurl.h`; the cookie
of a new handle is empty until `setcookie` is called. -/
def client.new (base : String) : client :=
  { base := base, cookie := "" }

/-- Modelled from the spec: `hurl::client::setcookie` of the missing `hurl.h`. -/
def client.setcookie (value : String) (self : client) : client :=
  { self with cookie := value }

/-- Modelled from the spec: the exceptions a blocking call of the missing `hurl.h` raises, which are
the four kinds the worker has a catch clause for: `hurl::timeout`, `hurl::resolve_error`,
`hurl::connect_error` and any other `std::runtime_error` with its `what()` text. -/
inductive failure where
  | timeout
  | resolve_error
  | connect_error
  | runtime_error (what : String)
  deriving DecidableEq, Repr

/-- Modelled from the spec: the four blocking member functions of `hurl::client` (missing `hurl.h`)
that the wrapper binds under the names `get_simple`, `get_params`, `post_simple`, `post_params`.
Each takes the handle it is called on and gives back that handle after the call (its cookie may
have been replaced by the server) together with the response or the exception raised. -/
structure transport where
  get_simple : client → String → client × Except failure httpresponse
  get_params : client → String → httpparams → client × Except failure httpresponse
  post_simple : client → String → String → client × Except failure httpresponse
  post_params : client → String → httpparams → client × Except failure httpresponse

/-! ## async_hurl.h -/

/-- An element of `callqueue_`, a `boost::function<void()>`. The worker builds it with
`boost::bind(*cb, response)`: a copy of the callback object and a copy of the response.
The field `target` is the address of the registry entry the callback was copied from; the program
never reads it, it only names the entry in statements. -/
structure Action (Cb : Type) where
  target : Nat
  cb : Cb
  response : httpresponse
  deriving DecidableEq, Repr

/-- The class `async_client`: `client_`, `callqueue_` (a `std::list`, front first) and `callbacks_`
(a `std::set` of shared pointers, here address and pointee). -/
structure async_client (Cb : Type) where
  client_ : client
  callqueue_ : List (Action Cb)
  callbacks_ : List (Nat × Cb)

/-- The constructor `async_client::async_client(client)`. -/
def async_client.new {Cb : Type} (c : client) : async_client Cb :=
  { client_ := c, callqueue_ := [], callbacks_ := [] }

/-- The member `async_client::cookie`. -/
def async_client.cookie {Cb : Type} (self : async_client Cb) : String :=
  self.client_.cookie

/-- The member `async_client::setcookie`. -/
def async_client.setcookie {Cb : Type} (value : String) (self : async_client Cb) : async_client Cb :=
  { self with client_ := self.client_.setcookie value }

/-- The member `async_client::schedule`: `callqueue_.push_back(f)`. -/
def async_client.schedule {Cb : Type} (f : Action Cb) (self : async_client Cb) : async_client Cb :=
  { self with callqueue_ := self.callqueue_ ++ [f] }

/-- The member `async_client::copyhandle`: a new handle on the same base, given the current cookie. -/
def async_client.copyhandle {Cb : Type} (self : async_client Cb) : client :=
  (client.new self.client_.base).setcookie self.client_.cookie


/-- The arguments of a worker, `struct thread_params`. The back pointer `client` is the one
client of the model. `func` is the bound blocking call; it is given the handle it was bound to. -/
structure thread_params where
  handle : client
  func : client → client × Except failure httpresponse
  cb : Nat

/-- Insertion into `callbacks_`, a `std::set` ordered by address: an address already present is
not inserted again. -/
def registry_insert {Cb : Type} (entry : Nat × Cb) (registry : List (Nat × Cb)) : List (Nat × Cb) :=
  if (registry.lookup entry.1).isSome then registry else registry ++ [entry]

/-- The member `async_client::get(path, cb)`. `cb_ptr` is the address `new callback(cb)` returns.
The result is the client and the arguments of the thread that is started. -/
def async_client.get {Cb : Type} (net : transport) (path : String) (cb : Cb) (cb_ptr : Nat)
    (self : async_client Cb) : async_client Cb × thread_params :=
  let registered := { self with callbacks_ := registry_insert (cb_ptr, cb) self.callbacks_ }
  (registered,
    { handle := registered.copyhandle, func := fun h => net.get_simple h path, cb := cb_ptr })

/-- The member `async_client::get(path, params, cb)`. -/
def async_client.get_params {Cb : Type} (net : transport) (path : String) (params : httpparams)
    (cb : Cb) (cb_ptr : Nat) (self : async_client Cb) : async_client Cb × thread_params :=
  let registered := { self with callbacks_ := registry_insert (cb_ptr, cb) self.callbacks_ }
  (registered,
    { handle := registered.copyhandle, func := fun h => net.get_params h path params, cb := cb_ptr })

/-- The member `async_client::post(path, data, cb)`. -/
def async_client.post {Cb : Type} (net : transport) (path : String) (data : String)
    (cb : Cb) (cb_ptr : Nat) (self : async_client Cb) : async_client Cb × thread_params :=
  let registered := { self with callbacks_ := registry_insert (cb_ptr, cb) self.callbacks_ }
  (registered,
    { handle := registered.copyhandle, func := fun h => net.post_simple h path data, cb := cb_ptr })

/-- The member `async_client::post(path, params, cb)`. -/
def async_client.post_params {Cb : Type} (net : transport) (path : String) (params : httpparams)
    (cb : Cb) (cb_ptr : Nat) (self : async_client Cb) : async_client Cb × thread_params :=
  let registered := { self with callbacks_ := registry_insert (cb_ptr, cb) self.callbacks_ }
  (registered,
    { handle := registered.copyhandle, func := fun h => net.post_params h path params, cb := cb_ptr })

/-! ## async_hurl.cpp: the worker -/

/-- The call `p->cb.lock()`. The callback objects are owned by `callbacks_` alone, so the weak
pointer resolves when the client still exists (`some`) and its registry holds the address. -/
def weak_lock {Cb : Type} (w : Nat) : Option (async_client Cb) → Option Cb
  | none => none
  | some c => c.callbacks_.lookup w

/-- Lines 35 to 48 of `async_request_thread`: `response.status = 0`, then the `try` block with its
four catch clauses. `Except.error` is an exception no clause caught. -/
def try_request (result : Except failure httpresponse) : Except failure httpresponse :=
  let response : httpresponse := { status := 0, body := "" }
  match result with
  | .ok r => .ok r
  | .error .timeout => .ok { response with body := "timeout" }
  | .error .resolve_error => .ok { response with body := "resolve_error" }
  | .error .connect_error => .ok { response with body := "connect_error" }
  | .error (.runtime_error what) => .ok { response with body := what }

/-- The thread procedure `async_request_thread(p)`. `mem` is the client `p->client` points to,
`none` once that client has been destroyed. `ran.1` is the handle `p->handle` after the blocking
call, `ran.2` what the call returned or raised. The result is the client afterwards, or the
exception that left the procedure. -/
def async_request_thread {Cb : Type} (p : thread_params) (mem : Option (async_client Cb)) :
    Except failure (Option (async_client Cb)) :=
  let ran := p.func p.handle
  match try_request ran.2 with
  | .error e => .error e
  | .ok response =>
    match mem, weak_lock p.cb mem with
    | some self, some cb =>
      let scheduled := self.schedule { target := p.cb, cb := cb, response := response }
      if ran.1.cookie ≠ "" then .ok (some (scheduled.setcookie ran.1.cookie))
      else .ok (some scheduled)
    | _, _ => .ok mem


/-! ## async_hurl.cpp: the drain -/

/-- What a queued function may do to the client while it runs: call the public members
`schedule`, `setcookie` and `sync`. A request member called from inside a callback touches the
registry only and is not among the calls. -/
inductive api_call (Cb : Type) where
  | schedule (f : Action Cb)
  | setcookie (value : String)
  | sync

/-- What one call of a callback does: the calls it makes on the client, in order, and whether it
then leaves by an exception instead of returning. -/
structure conduct (Cb : Type) where
  calls : List (api_call Cb)
  throws : Bool

/-- The code of the user callbacks, which is not part of the repository: for a callback object, the
response it is called with and the client as it finds it, what the call does. -/
abbrev behaviour (Cb : Type) := Cb → httpresponse → async_client Cb → conduct Cb

/-- Every callback returns normally and calls neither `schedule` nor `sync` while it runs. -/
def quiet {Cb : Type} (beh : behaviour Cb) : Prop :=
  ∀ cb r c, (beh cb r c).throws = false ∧
    ∀ k ∈ (beh cb r c).calls, ∃ value, k = api_call.setcookie value

/-- No callback calls `schedule` or `sync` while it runs; a callback may throw. -/
def never_reenters {Cb : Type} (beh : behaviour Cb) : Prop :=
  ∀ cb r c, ∀ k ∈ (beh cb r c).calls, ∃ value, k = api_call.setcookie value

/-- The state a call of `sync` works on: the client, the workers that finish while the call is
under way (`arriving`: one batch for each time the loop condition is tested, in order; when the
list is used up no further worker finishes), and the functions called so far, oldest first. -/
structure drain (Cb : Type) where
  self : async_client Cb
  arriving : List (List thread_params)
  called : List (Action Cb)

/-- How a call ends: it returns, it is left by an exception, it runs into `pop_front()` on an
empty list (no defined behaviour), or it has not ended within the fuel. -/
inductive outcome (Cb : Type) where
  | returned (d : drain Cb)
  | threw (d : drain Cb)
  | undefined
  | unfinished

/-- A batch of workers run their thread procedures to the end on a client that exists. -/
def complete_all {Cb : Type} : List thread_params → async_client Cb → async_client Cb
  | [], c => c
  | p :: ps, c =>
    match async_request_thread p (some c) with
    | .ok (some after) => complete_all ps after
    | _ => complete_all ps c

/-- The workers that finish before the next test of the loop condition do so. -/
def drain.arrive {Cb : Type} (d : drain Cb) : drain Cb :=
  match d.arriving with
  | [] => d
  | batch :: later => { d with self := complete_all batch d.self, arriving := later }

/-- The calls a running callback makes on the client, in order. `nested` is a call of `sync`
from inside the callback; an exception leaving it passes through the callback. -/
def run_calls {Cb : Type} (nested : drain Cb → outcome Cb) :
    List (api_call Cb) → drain Cb → outcome Cb
  | [], d => .returned d
  | .schedule f :: ks, d => run_calls nested ks { d with self := d.self.schedule f }
  | .setcookie value :: ks, d => run_calls nested ks { d with self := d.self.setcookie value }
  | .sync :: ks, d =>
    match nested d with
    | .returned after => run_calls nested ks after
    | other => other

/-- Calling a queued function `f()`: the bound callback is called with the bound response. -/
def Action.invoke {Cb : Type} (beh : behaviour Cb) (nested : drain Cb → outcome Cb)
    (f : Action Cb) (d : drain Cb) : outcome Cb :=
  match run_calls nested (beh f.cb f.response d.self).calls { d with called := d.called ++ [f] } with
  | .returned after => if (beh f.cb f.response d.self).throws then .threw after else .returned after
  | other => other

/-- The call `callqueue_.pop_front()`; `none` on an empty list. -/
def async_client.pop_front {Cb : Type} (self : async_client Cb) : Option (async_client Cb) :=
  match self.callqueue_ with
  | [] => none
  | _ :: rest => some { self with callqueue_ := rest }

/-- The loop of `async_client::sync`: `while (!callqueue_.empty())` call the front, then pop it.
An exception from the call leaves the loop before `pop_front()`. -/
def sync_loop {Cb : Type} (beh : behaviour Cb) : Nat → drain Cb → outcome Cb
  | 0, d =>
    match d.arrive.self.callqueue_ with
    | [] => .returned d.arrive
    | _ :: _ => .unfinished
  | fuel + 1, d =>
    match d.arrive.self.callqueue_ with
    | [] => .returned d.arrive
    | f :: _ =>
      match f.invoke beh (sync_loop beh fuel) d.arrive with
      | .returned after =>
        match after.self.pop_front with
        | none => .undefined
        | some popped => sync_loop beh fuel { after with self := popped }
      | other => other

/-- The member `async_client::sync`, called while the workers `arriving` finish. -/
def async_client.sync {Cb : Type} (beh : behaviour Cb) (fuel : Nat)
    (arriving : List (List thread_params)) (self : async_client Cb) : outcome Cb :=
  sync_loop beh fuel { self := self, arriving := arriving, called := [] }

/-! ## The client together with its workers -/

/-- The four request members of `async_client` with their arguments. -/
inductive request where
  | get (path : String)
  | get_params (path : String) (params : httpparams)
  | post (path : String) (data : String)
  | post_params (path : String) (params : httpparams)
  deriving DecidableEq, Repr

/-- Dispatch to the request member that `r` names. -/
def async_client.issue {Cb : Type} (net : transport) (r : request) (cb : Cb) (cb_ptr : Nat)
    (self : async_client Cb) : async_client Cb × thread_params :=
  match r with
  | .get path => self.get net path cb cb_ptr
  | .get_params path params => self.get_params net path params cb cb_ptr
  | .post path data => self.post net path data cb cb_ptr
  | .post_params path params => self.post_params net path params cb cb_ptr

/-- The client and what surrounds it. `mem` is the client object, `none` once destroyed;
`threads` are the workers started by `_beginthread` that have not finished; `next` is the next
address `new callback` returns. `delivered` and `invoked` are history: the functions workers
have put on the queue, and the functions `sync` has called, oldest first. -/
structure System (Cb : Type) where
  mem : Option (async_client Cb)
  threads : List thread_params
  next : Nat
  delivered : List (Action Cb)
  invoked : List (Action Cb)

/-- A client fresh from its constructor, no worker started. -/
def System.init {Cb : Type} (c : client) : System Cb :=
  { mem := some (async_client.new c), threads := [], next := 0, delivered := [], invoked := [] }

/-- The things that happen to a client: the caller calls a request member, a worker runs its
thread procedure to the end, the caller calls `sync`, `setcookie` or `schedule`, the caller
releases the client. -/
inductive Op (Cb : Type) where
  | issue (r : request) (cb : Cb)
  | complete (i : Nat)
  | sync (fuel : Nat)
  | setcookie (value : String)
  | schedule (f : Action Cb)
  | destroy

/-- The functions a worker has appended to the queue, read off the queue before and after. -/
def posted {Cb : Type} : Option (async_client Cb) → Option (async_client Cb) → List (Action Cb)
  | some before, some after => after.callqueue_.drop before.callqueue_.length
  | _, _ => []

/-- One step of the system. `none` when the step cannot be taken: a member called on a destroyed
client, no worker at index `i`, a `sync` that has not ended within its fuel or has no defined
behaviour, an exception leaving a worker. When `sync` is left by the exception of a callback the
exception goes to the caller and the client stays as the call left it. -/
def step {Cb : Type} (net : transport) (beh : behaviour Cb) : Op Cb → System Cb → Option (System Cb)
  | .issue r cb, s =>
    match s.mem with
    | none => none
    | some c =>
      let out := c.issue net r cb s.next
      some { s with mem := some out.1, threads := s.threads ++ [out.2], next := s.next + 1 }
  | .complete i, s =>
    match s.threads[i]? with
    | none => none
    | some p =>
      match async_request_thread p s.mem with
      | .error _ => none
      | .ok after =>
        some { s with
          mem := after
          threads := s.threads.take i ++ s.threads.drop (i + 1)
          delivered := s.delivered ++ posted s.mem after }
  | .sync fuel, s =>
    match s.mem with
    | none => none
    | some c =>
      match c.sync beh fuel [] with
      | .returned d => some { s with mem := some d.self, invoked := s.invoked ++ d.called }
      | .threw d => some { s with mem := some d.self, invoked := s.invoked ++ d.called }
      | .undefined => none
      | .unfinished => none
  | .setcookie value, s =>
    match s.mem with
    | none => none
    | some c => some { s with mem := some (c.setcookie value) }
  | .schedule f, s =>
    match s.mem with
    | none => none
    | some c => some { s with mem := some (c.schedule f) }
  | .destroy, s =>
    match s.mem with
    | none => none
    | some _ => some { s with mem := none }

/-- A sequence of steps, first to last. -/
def run {Cb : Type} (net : transport) (beh : behaviour Cb) : List (Op Cb) → System Cb → Option (System Cb)
  | [], s => some s
  | op :: ops, s =>
    match step net beh op s with
    | none => none
    | some t => run net beh ops t

/-- The step is a call of `schedule` by the caller. -/
def Op.is_schedule {Cb : Type} : Op Cb → Bool
  | .schedule _ => true
  | _ => false

/-- The step is a call of `sync`. -/
def Op.is_sync {Cb : Type} : Op Cb → Bool
  | .sync _ => true
  | _ => false

/-- The step is a call of a request member (`get` or `post`). -/
def Op.is_issue {Cb : Type} : Op Cb → Bool
  | .issue _ _ => true
  | _ => false

/-- Invariant of the registry: while the client exists, every address in `callbacks_` has been
handed out by the allocator and every started worker's weak pointer has its entry. -/
def registry_ok {Cb : Type} (s : System Cb) : Prop :=
  ∀ c, s.mem = some c →
    (∀ e ∈ c.callbacks_, e.1 < s.next) ∧ ∀ p ∈ s.threads, (c.callbacks_.lookup p.cb).isSome

/-- Invariant of delivery: the workers still running have distinct callback addresses, none of
which has been delivered, and delivered addresses are distinct. -/
def delivered_ok {Cb : Type} (s : System Cb) : Prop :=
  (∀ p ∈ s.threads, p.cb < s.next) ∧
  (s.threads.map thread_params.cb).Nodup ∧
  (∀ a ∈ s.delivered, a.target < s.next) ∧
  (s.delivered.map Action.target).Nodup ∧
  ∀ p ∈ s.threads, ∀ a ∈ s.delivered, a.target ≠ p.cb

/-- Invariant of the queue under quiet callbacks: what has been delivered is what has been invoked
followed by what is still on the queue. -/
def pending_ok {Cb : Type} (s : System Cb) : Prop :=
  ∃ pending, s.invoked ++ pending = s.delivered ∧ ∀ c, s.mem = some c → c.callqueue_ = pending

/-- A property of the state in which a call ends, when it ends by returning or by an exception. -/
def outcome.ends_with {Cb : Type} (o : outcome Cb) (P : drain Cb → Prop) : Prop :=
  match o with
  | .returned d => P d
  | .threw d => P d
  | .undefined => True
  | .unfinished => True

/-- The number of workers in the batches that finish during a call of `sync`. -/
def arrivals (arriving : List (List thread_params)) : Nat :=
  (arriving.map List.length).sum

/-! ## The specification's table of error bodies -/

/-- The body section 4.2 of the specification gives each failure category: `timeout`,
`resolve_error`, `connect_error`, and for any other failure its description text. This follows
the words of the specification; `try_request` is the code it is compared with. -/
def spec_failure_body : failure → String
  | .timeout => "timeout"
  | .resolve_error => "resolve_error"
  | .connect_error => "connect_error"
  | .runtime_error d => d


/-! ## Concrete inputs -/

/-- A network: `/ping` answers `200 pong` and leaves the handle alone, any other simple `get`
times out after the server has set the cookie `sid=new`; `get` with parameters cannot resolve the
host, `post` cannot connect, `post` with parameters fails with the text `boom`. -/
def ex_net : transport where
  get_simple h path :=
    if path = "/ping" then (h, Except.ok { status := 200, body := "pong" })
    else (h.setcookie "sid=new", Except.error failure.timeout)
  get_params h _ _ := (h, Except.error failure.resolve_error)
  post_simple h _ _ := (h, Except.error failure.connect_error)
  post_params h _ _ := (h, Except.error (failure.runtime_error "boom"))

/-- Callbacks that make no call on the client and return. -/
def ex_quiet : behaviour String := fun _ _ _ => { calls := [], throws := false }

/-- Callbacks that put themselves back on the queue each time they run. -/
def ex_again : behaviour String := fun cb r _ =>
  { calls := [api_call.schedule { target := 0, cb := cb, response := r }], throws := false }

/-- The callback `first` schedules the callback `second`, which makes no call. -/
def ex_once : behaviour String := fun cb r _ =>
  { calls :=
      if cb = "first" then [api_call.schedule { target := 1, cb := "second", response := r }]
      else [],
    throws := false }

/-- The callback `bad` throws, every other callback returns; none makes a call on the client. -/
def ex_bad : behaviour String := fun cb _ _ => { calls := [], throws := decide (cb = "bad") }

/-- The callback `outer` calls `sync()` from inside the drain the first time it runs (it marks
the cookie so that it does not do so again); every other callback makes no call. -/
def ex_reenter : behaviour String := fun cb _ c =>
  { calls :=
      if cb = "outer" ∧ c.cookie = "sid=1" then [api_call.setcookie "seen", api_call.sync] else [],
    throws := false }

/-- A client with cookie `sid=1`, as constructed. -/
def ex_client : async_client String :=
  async_client.new { base := "http://host", cookie := "sid=1" }

/-- The client after `get("/ping", "on_ping")`, and the arguments of the worker. -/
def ex_ping : async_client String × thread_params :=
  ex_client.get ex_net "/ping" "on_ping" 0

/-- The client after `post("/submit", "data", "on_submit")`, and the arguments of the worker. -/
def ex_submit : async_client String × thread_params :=
  ex_client.post ex_net "/submit" "data" "on_submit" 0

/-- A queue holding one function. -/
def ex_queued (cb : String) : async_client String :=
  ex_client.schedule { target := 0, cb := cb, response := { status := 200, body := "pong" } }

/-- A queue holding two functions, the callback `bad` in front of the callback `good`. -/
def ex_two : async_client String :=
  (ex_queued "bad").schedule { target := 1, cb := "good", response := { status := 0, body := "timeout" } }

/-- A worker of a client that has been destroyed. -/
def ex_orphan : System String :=
  { mem := none, threads := [ex_ping.2], next := 1, delivered := [], invoked := [] }

/-! ## The worker -/

theorem worker_resolved {Cb : Type} (p : thread_params) (self : async_client Cb) (cb : Cb)
    (response : httpresponse) (hres : weak_lock p.cb (some self) = some cb)
    (htry : try_request (p.func p.handle).2 = Except.ok response) :
    async_request_thread p (some self) = Except.ok (some
      (if (p.func p.handle).1.cookie ≠ ""
        then (self.schedule ⟨p.cb, cb, response⟩).setcookie (p.func p.handle).1.cookie
        else self.schedule ⟨p.cb, cb, response⟩)) := by
  unfold async_request_thread
  simp only [htry, hres]
  split <;> rfl

theorem worker_unresolved {Cb : Type} (p : thread_params) (mem : Option (async_client Cb))
    (hdead : weak_lock p.cb mem = none) : async_request_thread p mem = Except.ok mem := by
  cases htry : try_request (p.func p.handle).2 with
  | error e =>
    exfalso
    unfold try_request at htry
    split at htry <;> exact absurd htry (by simp)
  | ok response =>
    cases mem with
    | none => simp only [async_request_thread, htry]
    | some self => simp only [async_request_thread, htry, hdead]

theorem try_request_ok (result : Except failure httpresponse) :
    ∃ response, try_request result = Except.ok response := by
  unfold try_request
  split <;> exact ⟨_, rfl⟩

/-- C1: when the request function of a worker fails with a timeout, a name-resolution failure, a
connection failure or another runtime failure with description `d`, no exception leaves
`async_request_thread`, and when the callback resolves the function put on the queue binds the
envelope with status 0 and body `timeout`, `resolve_error`, `connect_error` or `d`. -/
theorem worker_failure_envelope {Cb : Type} (p : thread_params) (mem : Option (async_client Cb))
    (e : failure) (hfail : (p.func p.handle).2 = Except.error e) :
    (∃ after, async_request_thread p mem = Except.ok after) ∧
    ∀ self cb, mem = some self → weak_lock p.cb mem = some cb →
      ∃ after, async_request_thread p mem = Except.ok (some after) ∧
        after.callqueue_ = self.callqueue_ ++
          [{ target := p.cb, cb := cb,
             response := { status := 0, body := spec_failure_body e } }] := by
  have htry : try_request (p.func p.handle).2 =
      Except.ok { status := 0, body := spec_failure_body e } := by
    rw [hfail]; cases e <;> rfl
  constructor
  · cases hlock : weak_lock p.cb mem with
    | none => exact ⟨mem, worker_unresolved p mem hlock⟩
    | some cb =>
      cases mem with
      | none => exact absurd hlock (by simp [weak_lock])
      | some self => exact ⟨_, worker_resolved p self cb _ hlock htry⟩
  · intro self cb hmem hlock
    subst hmem
    refine ⟨_, worker_resolved p self cb _ hlock htry, ?_⟩
    split <;> rfl

/-- Witness of C1: the worker of `post("/submit", "data", cb)` on a network that cannot connect. -/
theorem worker_failure_envelope_witness :
    (ex_submit.2.func ex_submit.2.handle).2 = Except.error failure.connect_error ∧
    ∃ after, async_request_thread ex_submit.2 (some ex_submit.1) = Except.ok (some after) ∧
      after.callqueue_ = ex_submit.1.callqueue_ ++
        [{ target := 0, cb := "on_submit", response := { status := 0, body := "connect_error" } }] :=
  ⟨rfl, (worker_failure_envelope ex_submit.2 (some ex_submit.1) failure.connect_error rfl).2
    ex_submit.1 "on_submit" rfl rfl⟩

/-- C5: a worker whose weak callback reference does not resolve when its request has finished,
whatever the request returned or raised and whatever cookie its handle holds, ends without an
exception and leaves the client (queue and cookie with it) and both histories as they were. -/
theorem unresolved_completion_is_dropped {Cb : Type} (net : transport) (beh : behaviour Cb)
    (s : System Cb) (i : Nat) (p : thread_params) (hp : s.threads[i]? = some p)
    (hdead : weak_lock p.cb s.mem = none) :
    async_request_thread p s.mem = Except.ok s.mem ∧
    ∃ t, step net beh (Op.complete i) s = some t ∧
      t.mem = s.mem ∧ t.delivered = s.delivered ∧ t.invoked = s.invoked := by
  have hw := worker_unresolved p s.mem hdead
  refine ⟨hw, ?_⟩
  simp only [step, hp, hw]
  refine ⟨_, rfl, rfl, ?_, rfl⟩
  cases hm : s.mem <;> simp [posted]

/-- Witness of C5: the worker of a `get` whose client has been destroyed. -/
theorem unresolved_completion_is_dropped_witness :
    ex_orphan.threads[0]? = some ex_ping.2 ∧ weak_lock ex_ping.2.cb ex_orphan.mem = none ∧
    async_request_thread ex_ping.2 ex_orphan.mem = Except.ok ex_orphan.mem :=
  ⟨rfl, rfl, (unresolved_completion_is_dropped ex_net ex_quiet ex_orphan 0 ex_ping.2 rfl rfl).1⟩

theorem setcookie_cookie {Cb : Type} (value : String) (c : async_client Cb) :
    (c.setcookie value).cookie = value := rfl

theorem schedule_cookie {Cb : Type} (f : Action Cb) (c : async_client Cb) :
    (c.schedule f).cookie = c.cookie := rfl

theorem worker_cookie {Cb : Type} (p : thread_params) (self : async_client Cb) (cb : Cb)
    (hres : weak_lock p.cb (some self) = some cb) :
    ∃ after, async_request_thread p (some self) = Except.ok (some after) ∧
      after.cookie =
        if (p.func p.handle).1.cookie ≠ "" then (p.func p.handle).1.cookie else self.cookie := by
  obtain ⟨response, htry⟩ := try_request_ok (p.func p.handle).2
  refine ⟨_, worker_resolved p self cb response hres htry, ?_⟩
  by_cases hc : (p.func p.handle).1.cookie = ""
  · simp [hc, schedule_cookie]
  · simp only [ne_eq, hc, not_false_eq_true, if_true, setcookie_cookie]

theorem weak_lock_setcookie {Cb : Type} (w : Nat) (v : String) (c : async_client Cb) :
    weak_lock w (some (c.setcookie v)) = weak_lock w (some c) := rfl

/-- C6: a worker that completes with a resolvable callback calls `setcookie` with its handle's
cookie exactly when that cookie is non-empty: then the client's cookie afterwards equals the
handle's cookie, and when the handle's cookie is empty the client's cookie is as it was. The
completion overwrites the client's cookie (whatever value the client held, it holds the handle's
cookie afterwards) if and only if the handle's cookie is non-empty. -/
theorem completion_cookie {Cb : Type} (p : thread_params) (self : async_client Cb) (cb : Cb)
    (hres : weak_lock p.cb (some self) = some cb) :
    ∃ after f, async_request_thread p (some self) = Except.ok (some after) ∧
      ((p.func p.handle).1.cookie ≠ "" →
        after = (self.schedule f).setcookie (p.func p.handle).1.cookie ∧
        after.cookie = (p.func p.handle).1.cookie) ∧
      ((p.func p.handle).1.cookie = "" →
        after = self.schedule f ∧ after.cookie = self.cookie) ∧
      ((p.func p.handle).1.cookie ≠ "" ↔
        ∀ v, ∃ over, async_request_thread p (some (self.setcookie v)) = Except.ok (some over) ∧
          over.cookie = (p.func p.handle).1.cookie) := by
  obtain ⟨response, htry⟩ := try_request_ok (p.func p.handle).2
  refine ⟨_, ⟨p.cb, cb, response⟩, worker_resolved p self cb response hres htry, ?_, ?_, ?_⟩
  · intro hc
    rw [if_pos hc]
    exact ⟨rfl, rfl⟩
  · intro hc
    rw [if_neg (not_not.mpr hc)]
    exact ⟨rfl, rfl⟩
  · constructor
    · intro hc v
      obtain ⟨over, hrun, hover⟩ := worker_cookie p (self.setcookie v) cb
        (by rw [weak_lock_setcookie]; exact hres)
      exact ⟨over, hrun, by rw [hover, if_pos hc]⟩
    · intro hall hc
      obtain ⟨over, hrun, hover⟩ := hall "overwritten"
      obtain ⟨over2, hrun2, hover2⟩ := worker_cookie p (self.setcookie "overwritten") cb
        (by rw [weak_lock_setcookie]; exact hres)
      rw [hrun] at hrun2
      simp only [Except.ok.injEq, Option.some.injEq] at hrun2
      subst hrun2
      rw [hover2, if_neg (not_not.mpr hc), setcookie_cookie, hc] at hover
      exact absurd hover (by decide)

/-- Witness of C6: the worker of `get("/ping", cb)`, whose handle keeps the cookie `sid=1`. -/
theorem completion_cookie_witness :
    weak_lock ex_ping.2.cb (some ex_ping.1) = some "on_ping" ∧
    ∃ after, async_request_thread ex_ping.2 (some (ex_ping.1.setcookie "sid=2"))
        = Except.ok (some after) ∧
      after.cookie = (ex_ping.2.func ex_ping.2.handle).1.cookie :=
  ⟨rfl, by
    obtain ⟨_, _, _, _, _, hiff⟩ := completion_cookie ex_ping.2 ex_ping.1 "on_ping" rfl
    exact hiff.mp (by decide) "sid=2"⟩

theorem issue_thread {Cb : Type} (net : transport) (r : request) (cb : Cb) (cb_ptr : Nat)
    (c : async_client Cb) :
    (c.issue net r cb cb_ptr).2.handle = c.copyhandle ∧ (c.issue net r cb cb_ptr).2.cb = cb_ptr := by
  cases r <;> exact ⟨rfl, rfl⟩

theorem issue_client {Cb : Type} (net : transport) (r : request) (cb : Cb) (cb_ptr : Nat)
    (c : async_client Cb) :
    (c.issue net r cb cb_ptr).1 =
      { c with callbacks_ := registry_insert (cb_ptr, cb) c.callbacks_ } := by
  cases r <;> rfl

/-- C10: a request (any of the four members) issued while the client's cookie is a non-empty value
gives its worker a handle with that cookie; when the blocking call leaves the handle's cookie as
it was and the callback resolves at completion, the completion sets the client's cookie back to
the value held at issue, whatever value `setcookie(v)` stored on the client in between. -/
theorem inherited_cookie_overwrites {Cb : Type} (net : transport) (r : request) (cb : Cb)
    (cb_ptr : Nat) (at_issue later : async_client Cb) (v : String) (resolved : Cb)
    (hcookie : at_issue.cookie ≠ "")
    (hkeep : ((at_issue.issue net r cb cb_ptr).2.func (at_issue.issue net r cb cb_ptr).2.handle).1.cookie
      = (at_issue.issue net r cb cb_ptr).2.handle.cookie)
    (hres : weak_lock (at_issue.issue net r cb cb_ptr).2.cb (some (later.setcookie v)) = some resolved) :
    (at_issue.issue net r cb cb_ptr).2.handle.cookie = at_issue.cookie ∧
    (later.setcookie v).cookie = v ∧
    ∃ after, async_request_thread (at_issue.issue net r cb cb_ptr).2 (some (later.setcookie v))
        = Except.ok (some after) ∧ after.cookie = at_issue.cookie := by
  have hhandle : (at_issue.issue net r cb cb_ptr).2.handle.cookie = at_issue.cookie := by
    rw [(issue_thread net r cb cb_ptr at_issue).1]; rfl
  refine ⟨hhandle, rfl, ?_⟩
  obtain ⟨after, hrun, hafter⟩ :=
    worker_cookie (at_issue.issue net r cb cb_ptr).2 (later.setcookie v) resolved hres
  refine ⟨after, hrun, ?_⟩
  rw [hafter, hkeep, hhandle, if_pos hcookie]

/-- Witness of C10: `get("/ping", cb)` issued under cookie `sid=1`, then `setcookie("sid=2")`, then
the worker completes. -/
theorem inherited_cookie_overwrites_witness :
    ex_client.cookie ≠ "" ∧ ((ex_ping.1.setcookie "sid=2").cookie = "sid=2" ∧
    ∃ after, async_request_thread ex_ping.2 (some (ex_ping.1.setcookie "sid=2"))
        = Except.ok (some after) ∧ after.cookie = "sid=1") :=
  ⟨by decide, (inherited_cookie_overwrites ex_net (request.get "/ping") "on_ping" 0 ex_client
    ex_ping.1 "sid=2" "on_ping" (by decide) rfl rfl).2⟩

/-! ## Lemmas on the drain -/

theorem worker_cases {Cb : Type} (p : thread_params) (mem : Option (async_client Cb)) :
    (weak_lock p.cb mem = none ∧ async_request_thread p mem = Except.ok mem) ∨
    ∃ self cb response after, mem = some self ∧ weak_lock p.cb mem = some cb ∧
      try_request (p.func p.handle).2 = Except.ok response ∧
      async_request_thread p mem = Except.ok (some after) ∧
      after.callbacks_ = self.callbacks_ ∧
      after.callqueue_ = self.callqueue_ ++ [⟨p.cb, cb, response⟩] := by
  cases hlock : weak_lock p.cb mem with
  | none => exact Or.inl ⟨rfl, worker_unresolved p mem hlock⟩
  | some cb =>
    right
    cases mem with
    | none => exact absurd hlock (by simp [weak_lock])
    | some self =>
      obtain ⟨response, htry⟩ := try_request_ok (p.func p.handle).2
      refine ⟨self, cb, response, _, rfl, rfl, htry, worker_resolved p self cb response hlock htry,
        ?_, ?_⟩ <;> (split <;> rfl)

theorem complete_all_facts {Cb : Type} (ps : List thread_params) (c : async_client Cb) :
    (complete_all ps c).callbacks_ = c.callbacks_ ∧
    ∃ del, (complete_all ps c).callqueue_ = c.callqueue_ ++ del ∧ del.length ≤ ps.length := by
  induction ps generalizing c with
  | nil => exact ⟨rfl, [], by simp [complete_all], Nat.le_refl _⟩
  | cons p ps ih =>
    rcases worker_cases p (some c) with
      ⟨_, hw⟩ | ⟨self, cb, response, after, hm, _, _, hw, hreg, hqueue⟩
    · simp only [complete_all, hw]
      obtain ⟨h1, del, h2, h3⟩ := ih c
      exact ⟨h1, del, h2, by simp only [List.length_cons]; omega⟩
    · simp only [Option.some.injEq] at hm
      subst hm
      simp only [complete_all, hw]
      obtain ⟨h1, del, h2, h3⟩ := ih after
      refine ⟨by rw [h1, hreg], ⟨p.cb, cb, response⟩ :: del, by rw [h2, hqueue]; simp, ?_⟩
      simp only [List.length_cons]
      omega

theorem arrive_none {Cb : Type} (d : drain Cb) (h : d.arriving = []) : d.arrive = d := by
  simp only [drain.arrive, h]

theorem arrive_facts {Cb : Type} (d : drain Cb) :
    d.arrive.self.callbacks_ = d.self.callbacks_ ∧ d.arrive.called = d.called ∧
    ∃ del, d.arrive.self.callqueue_ = d.self.callqueue_ ++ del ∧
      del.length + arrivals d.arrive.arriving ≤ arrivals d.arriving := by
  cases ha : d.arriving with
  | nil =>
    rw [arrive_none d ha]
    exact ⟨rfl, rfl, [], by simp, by simp [ha]⟩
  | cons batch later =>
    obtain ⟨h1, del, h2, h3⟩ := complete_all_facts batch d.self
    have harr : d.arrive =
        { d with self := complete_all batch d.self, arriving := later } := by
      simp only [drain.arrive, ha]
    rw [harr]
    refine ⟨h1, rfl, del, h2, ?_⟩
    simp only [arrivals, List.map_cons, List.sum_cons]
    omega

theorem run_calls_setcookies {Cb : Type} (nested : drain Cb → outcome Cb)
    (ks : List (api_call Cb)) (d : drain Cb)
    (h : ∀ k ∈ ks, ∃ value, k = api_call.setcookie value) :
    ∃ after, run_calls nested ks d = outcome.returned after ∧
      after.self.callqueue_ = d.self.callqueue_ ∧ after.self.callbacks_ = d.self.callbacks_ ∧
      after.arriving = d.arriving ∧ after.called = d.called := by
  induction ks generalizing d with
  | nil => exact ⟨d, rfl, rfl, rfl, rfl, rfl⟩
  | cons k ks ih =>
    obtain ⟨value, rfl⟩ := h k (List.mem_cons_self _ _)
    obtain ⟨after, h1, h2, h3, h4, h5⟩ :=
      ih { d with self := d.self.setcookie value } (fun k hk => h k (List.mem_cons_of_mem _ hk))
    exact ⟨after, by simp only [run_calls, h1], h2, h3, h4, h5⟩

theorem invoke_never_reenters {Cb : Type} (beh : behaviour Cb) (h : never_reenters beh)
    (nested : drain Cb → outcome Cb) (f : Action Cb) (d : drain Cb) :
    ∃ after, f.invoke beh nested d =
        (if (beh f.cb f.response d.self).throws then outcome.threw after
          else outcome.returned after) ∧
      after.self.callqueue_ = d.self.callqueue_ ∧ after.self.callbacks_ = d.self.callbacks_ ∧
      after.arriving = d.arriving ∧ after.called = d.called ++ [f] := by
  obtain ⟨after, h1, h2, h3, h4, h5⟩ :=
    run_calls_setcookies nested (beh f.cb f.response d.self).calls
      { d with called := d.called ++ [f] } (fun k hk => h _ _ _ k hk)
  exact ⟨after, by simp only [Action.invoke, h1], h2, h3, h4, h5⟩

theorem quiet_never_reenters {Cb : Type} (beh : behaviour Cb) (hq : quiet beh) :
    never_reenters beh :=
  fun cb r c => (hq cb r c).2

theorem pop_front_cons {Cb : Type} (c : async_client Cb) (f : Action Cb) (rest : List (Action Cb))
    (h : c.callqueue_ = f :: rest) : c.pop_front = some { c with callqueue_ := rest } := by
  simp only [async_client.pop_front, h]

theorem sync_loop_empty {Cb : Type} (beh : behaviour Cb) (fuel : Nat) (d : drain Cb)
    (h : d.arrive.self.callqueue_ = []) : sync_loop beh fuel d = outcome.returned d.arrive := by
  cases fuel <;> simp only [sync_loop, h]

theorem sync_loop_zero_cons {Cb : Type} (beh : behaviour Cb) (d : drain Cb) (f : Action Cb)
    (rest : List (Action Cb)) (h : d.arrive.self.callqueue_ = f :: rest) :
    sync_loop beh 0 d = outcome.unfinished := by
  simp only [sync_loop, h]

theorem sync_loop_succ_cons {Cb : Type} (beh : behaviour Cb) (n : Nat) (d : drain Cb)
    (f : Action Cb) (rest : List (Action Cb)) (h : d.arrive.self.callqueue_ = f :: rest) :
    sync_loop beh (n + 1) d =
      match f.invoke beh (sync_loop beh n) d.arrive with
      | .returned after =>
        match after.self.pop_front with
        | none => outcome.undefined
        | some popped => sync_loop beh n { after with self := popped }
      | other => other := by
  rw [sync_loop]
  simp only [h]

theorem sync_plain {Cb : Type} (beh : behaviour Cb) (h : never_reenters beh) (fuel : Nat)
    (d : drain Cb) (harr : d.arriving = []) :
    (∀ after, sync_loop beh fuel d = outcome.returned after →
      after.called = d.called ++ d.self.callqueue_ ∧ after.self.callqueue_ = []) ∧
    (∀ after, sync_loop beh fuel d = outcome.threw after →
      (∃ cb r c, (beh cb r c).throws = true) ∧
      after.called.length ≤ d.called.length + d.self.callqueue_.length) ∧
    sync_loop beh fuel d ≠ outcome.undefined ∧
    (sync_loop beh fuel d = outcome.unfinished → fuel < d.self.callqueue_.length) := by
  induction fuel generalizing d with
  | zero =>
    cases hc : d.self.callqueue_ with
    | nil =>
      rw [sync_loop_empty beh 0 d (by rw [arrive_none d harr]; exact hc), arrive_none d harr]
      refine ⟨?_, ?_, ?_, ?_⟩
      · intro after ha
        simp only [outcome.returned.injEq] at ha
        subst ha
        exact ⟨by simp, hc⟩
      · intro after ha; exact absurd ha (by simp)
      · simp
      · intro ha; exact absurd ha (by simp)
    | cons f rest =>
      rw [sync_loop_zero_cons beh d f rest (by rw [arrive_none d harr]; exact hc)]
      refine ⟨?_, ?_, ?_, ?_⟩
      · intro after ha; exact absurd ha (by simp)
      · intro after ha; exact absurd ha (by simp)
      · simp
      · intro _; simp
  | succ n ih =>
    cases hc : d.self.callqueue_ with
    | nil =>
      rw [sync_loop_empty beh _ d (by rw [arrive_none d harr]; exact hc), arrive_none d harr]
      refine ⟨?_, ?_, ?_, ?_⟩
      · intro after ha
        simp only [outcome.returned.injEq] at ha
        subst ha
        exact ⟨by simp, hc⟩
      · intro after ha; exact absurd ha (by simp)
      · simp
      · intro ha; exact absurd ha (by simp)
    | cons f rest =>
      have hca : d.arrive.self.callqueue_ = f :: rest := by rw [arrive_none d harr]; exact hc
      obtain ⟨a1, h1, h2, _, h4, h5⟩ := invoke_never_reenters beh h (sync_loop beh n) f d.arrive
      rw [arrive_none d harr] at h1 h2 h4 h5
      rw [sync_loop_succ_cons beh n d f rest hca, arrive_none d harr, h1]
      cases ht : (beh f.cb f.response d.self).throws with
      | true =>
        simp only [if_true]
        refine ⟨?_, ?_, ?_, ?_⟩
        · intro after ha; exact absurd ha (by simp)
        · intro after ha
          simp only [outcome.threw.injEq] at ha
          subst ha
          refine ⟨⟨_, _, _, ht⟩, ?_⟩
          rw [h5]
          simp
        · simp
        · intro ha; exact absurd ha (by simp)
      | false =>
        simp only [Bool.false_eq_true, if_false, pop_front_cons a1.self f rest (h2.trans hc)]
        obtain ⟨i1, i2, i3, i4⟩ :=
          ih { a1 with self := { a1.self with callqueue_ := rest } } (by rw [← harr]; exact h4)
        refine ⟨?_, ?_, i3, ?_⟩
        · intro after ha
          obtain ⟨j1, j2⟩ := i1 after ha
          exact ⟨by rw [j1, h5]; simp, j2⟩
        · intro after ha
          obtain ⟨j1, j2⟩ := i2 after ha
          refine ⟨j1, ?_⟩
          simp only [h5, List.length_append, List.length_cons, List.length_nil] at j2 ⊢
          omega
        · intro ha
          have := i4 ha
          simp only [List.length_cons] at this ⊢
          omega

theorem sync_bound {Cb : Type} (beh : behaviour Cb) (h : never_reenters beh) (fuel : Nat)
    (d : drain Cb) :
    (∀ after, sync_loop beh fuel d = outcome.returned after →
      after.called.length ≤ d.called.length + d.self.callqueue_.length + arrivals d.arriving) ∧
    (∀ after, sync_loop beh fuel d = outcome.threw after →
      after.called.length ≤ d.called.length + d.self.callqueue_.length + arrivals d.arriving) ∧
    sync_loop beh fuel d ≠ outcome.undefined ∧
    (sync_loop beh fuel d = outcome.unfinished →
      fuel < d.self.callqueue_.length + arrivals d.arriving) := by
  induction fuel generalizing d with
  | zero =>
    obtain ⟨_, hcalled, del, hqueue, hbudget⟩ := arrive_facts d
    cases hc : d.arrive.self.callqueue_ with
    | nil =>
      rw [sync_loop_empty beh 0 d hc]
      refine ⟨?_, ?_, ?_, ?_⟩
      · intro after ha
        simp only [outcome.returned.injEq] at ha
        subst ha
        rw [hcalled]
        omega
      · intro after ha; exact absurd ha (by simp)
      · simp
      · intro ha; exact absurd ha (by simp)
    | cons f rest =>
      have hlens : d.self.callqueue_.length + del.length = rest.length + 1 := by
        have := congrArg List.length hqueue
        rw [hc] at this
        simp only [List.length_cons, List.length_append] at this
        omega
      rw [sync_loop_zero_cons beh d f rest hc]
      refine ⟨?_, ?_, ?_, ?_⟩
      · intro after ha; exact absurd ha (by simp)
      · intro after ha; exact absurd ha (by simp)
      · simp
      · intro _; omega
  | succ n ih =>
    obtain ⟨_, hcalled, del, hqueue, hbudget⟩ := arrive_facts d
    cases hc : d.arrive.self.callqueue_ with
    | nil =>
      rw [sync_loop_empty beh _ d hc]
      refine ⟨?_, ?_, ?_, ?_⟩
      · intro after ha
        simp only [outcome.returned.injEq] at ha
        subst ha
        rw [hcalled]
        omega
      · intro after ha; exact absurd ha (by simp)
      · simp
      · intro ha; exact absurd ha (by simp)
    | cons f rest =>
      have hlens : d.self.callqueue_.length + del.length = rest.length + 1 := by
        have := congrArg List.length hqueue
        rw [hc] at this
        simp only [List.length_cons, List.length_append] at this
        omega
      obtain ⟨a1, h1, h2, _, h4, h5⟩ := invoke_never_reenters beh h (sync_loop beh n) f d.arrive
      rw [sync_loop_succ_cons beh n d f rest hc, h1]
      cases ht : (beh f.cb f.response d.arrive.self).throws with
      | true =>
        simp only [if_true]
        refine ⟨?_, ?_, ?_, ?_⟩
        · intro after ha; exact absurd ha (by simp)
        · intro after ha
          simp only [outcome.threw.injEq] at ha
          subst ha
          rw [h5, hcalled]
          simp only [List.length_append, List.length_cons, List.length_nil]
          omega
        · simp
        · intro ha; exact absurd ha (by simp)
      | false =>
        simp only [Bool.false_eq_true, if_false, pop_front_cons a1.self f rest (h2.trans hc)]
        obtain ⟨i1, i2, i3, i4⟩ := ih { a1 with self := { a1.self with callqueue_ := rest } }
        refine ⟨?_, ?_, i3, ?_⟩
        · intro after ha
          have := i1 after ha
          simp only [h4, h5, hcalled, List.length_append, List.length_cons, List.length_nil]
            at this
          omega
        · intro after ha
          have := i2 after ha
          simp only [h4, h5, hcalled, List.length_append, List.length_cons, List.length_nil]
            at this
          omega
        · intro ha
          have := i4 ha
          simp only [h4] at this
          omega

theorem sync_quiet {Cb : Type} (beh : behaviour Cb) (hq : quiet beh) (fuel : Nat)
    (c : async_client Cb) (hfuel : c.callqueue_.length ≤ fuel) :
    ∃ after, c.sync beh fuel [] = outcome.returned after ∧
      after.called = c.callqueue_ ∧ after.self.callqueue_ = [] := by
  obtain ⟨h1, h2, h3, h4⟩ := sync_plain beh (quiet_never_reenters beh hq) fuel
    { self := c, arriving := [], called := [] } rfl
  cases ho : sync_loop beh fuel { self := c, arriving := [], called := [] } with
  | returned after =>
    obtain ⟨j1, j2⟩ := h1 after ho
    exact ⟨after, ho, by simpa using j1, j2⟩
  | threw after =>
    obtain ⟨⟨cb, r, c2, ht⟩, _⟩ := h2 after ho
    rw [(hq cb r c2).1] at ht
    exact absurd ht (by simp)
  | undefined => exact absurd ho h3
  | unfinished =>
    have := h4 ho
    simp only at this
    omega

theorem sync_quiet_ended {Cb : Type} (beh : behaviour Cb) (hq : quiet beh) (fuel : Nat)
    (c : async_client Cb) (after : drain Cb)
    (h : c.sync beh fuel [] = outcome.returned after ∨ c.sync beh fuel [] = outcome.threw after) :
    after.called = c.callqueue_ ∧ after.self.callqueue_ = [] := by
  obtain ⟨h1, h2, _, _⟩ := sync_plain beh (quiet_never_reenters beh hq) fuel
    { self := c, arriving := [], called := [] } rfl
  rcases h with h | h
  · obtain ⟨j1, j2⟩ := h1 after h
    exact ⟨by simpa using j1, j2⟩
  · obtain ⟨⟨cb, r, c2, ht⟩, _⟩ := h2 after h
    rw [(hq cb r c2).1] at ht
    exact absurd ht (by simp)

theorem ends_with_trans {Cb : Type} (o : outcome Cb) (P Q : drain Cb → Prop)
    (h : o.ends_with P) (hpq : ∀ d, P d → Q d) : o.ends_with Q := by
  cases o with
  | returned d => exact hpq d h
  | threw d => exact hpq d h
  | undefined => trivial
  | unfinished => trivial

theorem run_calls_callbacks {Cb : Type} (nested : drain Cb → outcome Cb)
    (hn : ∀ d, (nested d).ends_with (fun a => a.self.callbacks_ = d.self.callbacks_))
    (ks : List (api_call Cb)) (d : drain Cb) :
    (run_calls nested ks d).ends_with (fun a => a.self.callbacks_ = d.self.callbacks_) := by
  induction ks generalizing d with
  | nil => exact rfl
  | cons k ks ih =>
    cases k with
    | schedule f =>
      simp only [run_calls]
      exact ih { d with self := d.self.schedule f }
    | setcookie value =>
      simp only [run_calls]
      exact ih { d with self := d.self.setcookie value }
    | sync =>
      have hnd := hn d
      simp only [run_calls]
      cases ho : nested d with
      | returned a1 =>
        rw [ho] at hnd
        simp only
        exact ends_with_trans _ _ _ (ih a1) (fun a ha => ha.trans hnd)
      | threw a1 => rw [ho] at hnd; exact hnd
      | undefined => trivial
      | unfinished => trivial

theorem invoke_callbacks {Cb : Type} (beh : behaviour Cb) (nested : drain Cb → outcome Cb)
    (hn : ∀ d, (nested d).ends_with (fun a => a.self.callbacks_ = d.self.callbacks_))
    (f : Action Cb) (d : drain Cb) :
    (f.invoke beh nested d).ends_with (fun a => a.self.callbacks_ = d.self.callbacks_) := by
  have h := run_calls_callbacks nested hn (beh f.cb f.response d.self).calls
    { d with called := d.called ++ [f] }
  simp only [Action.invoke]
  cases ho : run_calls nested (beh f.cb f.response d.self).calls
      { d with called := d.called ++ [f] } with
  | returned a1 =>
    rw [ho] at h
    simp only
    split
    · exact h
    · exact h
  | threw a1 => rw [ho] at h; exact h
  | undefined => trivial
  | unfinished => trivial

theorem sync_loop_callbacks {Cb : Type} (beh : behaviour Cb) (fuel : Nat) (d : drain Cb) :
    (sync_loop beh fuel d).ends_with (fun a => a.self.callbacks_ = d.self.callbacks_) := by
  induction fuel generalizing d with
  | zero =>
    cases hc : d.arrive.self.callqueue_ with
    | nil =>
      rw [sync_loop_empty beh 0 d hc]
      exact (arrive_facts d).1
    | cons f rest =>
      rw [sync_loop_zero_cons beh d f rest hc]
      trivial
  | succ n ih =>
    cases hc : d.arrive.self.callqueue_ with
    | nil =>
      rw [sync_loop_empty beh _ d hc]
      exact (arrive_facts d).1
    | cons f rest =>
      rw [sync_loop_succ_cons beh n d f rest hc]
      have hi := invoke_callbacks beh (sync_loop beh n) ih f d.arrive
      cases ho : f.invoke beh (sync_loop beh n) d.arrive with
      | returned a1 =>
        rw [ho] at hi
        simp only
        cases hp : a1.self.pop_front with
        | none => trivial
        | some popped =>
          simp only
          have hpop : popped.callbacks_ = a1.self.callbacks_ := by
            unfold async_client.pop_front at hp
            split at hp
            · exact absurd hp (by simp)
            · simp only [Option.some.injEq] at hp
              rw [← hp]
          exact ends_with_trans _ _ _ (ih { a1 with self := popped })
            (fun a ha => ha.trans (hpop.trans (hi.trans (arrive_facts d).1)))
      | threw a1 =>
        rw [ho] at hi
        exact hi.trans (arrive_facts d).1
      | undefined => trivial
      | unfinished => trivial

theorem sync_again_unfinished (fuel : Nat) (d : drain String) (cb : String) (r : httpresponse)
    (harr : d.arriving = []) (hc : d.self.callqueue_ = [⟨0, cb, r⟩]) :
    sync_loop ex_again fuel d = outcome.unfinished := by
  induction fuel generalizing d with
  | zero => exact sync_loop_zero_cons ex_again d _ _ (by rw [arrive_none d harr]; exact hc)
  | succ n ih =>
    rw [sync_loop_succ_cons ex_again n d _ _ (by rw [arrive_none d harr]; exact hc),
      arrive_none d harr]
    simp only [Action.invoke, ex_again, run_calls, Bool.false_eq_true, if_false,
      async_client.pop_front, async_client.schedule, hc, List.cons_append, List.nil_append]
    exact ih _ harr rfl

theorem sync_callbacks {Cb : Type} (beh : behaviour Cb) (fuel : Nat) (c : async_client Cb)
    (after : drain Cb)
    (h : c.sync beh fuel [] = outcome.returned after ∨ c.sync beh fuel [] = outcome.threw after) :
    after.self.callbacks_ = c.callbacks_ := by
  have hcb := sync_loop_callbacks beh fuel { self := c, arriving := [], called := [] }
  unfold async_client.sync at h
  rcases h with h | h <;> (rw [h] at hcb; exact hcb)

/-! ## The drain -/

/-- C2: when the blocking call of a worker returns the envelope `r` and the callback resolves, the
worker appends to the queue a function bound to that callback and to `r`, status and body
untouched, and a following `sync()` (callbacks that return and call neither `schedule` nor
`sync`) calls exactly the functions queued before it and then this one, which calls the callback
with `r`. -/
theorem success_envelope_delivered {Cb : Type} (beh : behaviour Cb) (hq : quiet beh)
    (p : thread_params) (self : async_client Cb) (cb : Cb) (r : httpresponse) (fuel : Nat)
    (hok : (p.func p.handle).2 = Except.ok r)
    (hres : weak_lock p.cb (some self) = some cb)
    (hfuel : self.callqueue_.length < fuel) :
    ∃ after final f, async_request_thread p (some self) = Except.ok (some after) ∧
      after.callqueue_ = self.callqueue_ ++ [f] ∧
      f.target = p.cb ∧ f.cb = cb ∧ f.response.status = r.status ∧ f.response.body = r.body ∧
      (∀ nested d, f.invoke beh nested d =
        match run_calls nested (beh cb r d.self).calls { d with called := d.called ++ [f] } with
        | .returned ended => if (beh cb r d.self).throws then .threw ended else .returned ended
        | other => other) ∧
      after.sync beh fuel [] = outcome.returned final ∧
      final.called = self.callqueue_ ++ [f] ∧ final.self.callqueue_ = [] := by
  have htry : try_request (p.func p.handle).2 = Except.ok r := by rw [hok]; rfl
  have hrun := worker_resolved p self cb r hres htry
  have hqueue : (if (p.func p.handle).1.cookie ≠ ""
        then (self.schedule ⟨p.cb, cb, r⟩).setcookie (p.func p.handle).1.cookie
        else self.schedule ⟨p.cb, cb, r⟩).callqueue_ = self.callqueue_ ++ [⟨p.cb, cb, r⟩] := by
    split <;> rfl
  obtain ⟨final, hfinal, hcalled, hempty⟩ := sync_quiet beh hq fuel _
    (show (if (p.func p.handle).1.cookie ≠ ""
        then (self.schedule ⟨p.cb, cb, r⟩).setcookie (p.func p.handle).1.cookie
        else self.schedule ⟨p.cb, cb, r⟩).callqueue_.length ≤ fuel by
      rw [hqueue]; simp; omega)
  rw [hqueue] at hcalled
  exact ⟨_, final, ⟨p.cb, cb, r⟩, hrun, hqueue, rfl, rfl, rfl, rfl, fun _ _ => rfl, hfinal,
    hcalled, hempty⟩

/-- Witness of C2: `get("/ping", cb)` answered `200 pong`, then `sync()`. -/
theorem success_envelope_delivered_witness :
    (ex_ping.2.func ex_ping.2.handle).2 = Except.ok ⟨200, "pong"⟩ ∧
    ∃ after final f, async_request_thread ex_ping.2 (some ex_ping.1) = Except.ok (some after) ∧
      after.callqueue_ = ex_ping.1.callqueue_ ++ [f] ∧
      f.target = 0 ∧ f.cb = "on_ping" ∧ f.response.status = 200 ∧ f.response.body = "pong" ∧
      after.sync ex_quiet 1 [] = outcome.returned final ∧
      final.called = ex_ping.1.callqueue_ ++ [f] ∧ final.self.callqueue_ = [] := by
  obtain ⟨after, final, f, h1, h2, h3, h4, h5, h6, _, h8, h9, h10⟩ :=
    success_envelope_delivered ex_quiet
      (fun _ _ _ => ⟨rfl, fun _ hk => absurd hk (List.not_mem_nil _)⟩)
      ex_ping.2 ex_ping.1 "on_ping" ⟨200, "pong"⟩ 1 rfl rfl (by decide)
  exact ⟨rfl, after, final, f, h1, h2, h3, h4, h5, h6, h8, h9, h10⟩

/-- C8 as stated fails. A queue of length one whose function schedules one further function:
`sync()` returns after calling two functions, more than the queue held when it was called.
A queue of length one whose function puts itself back on the queue: `sync()` does not end,
whatever the number of loop turns allowed. -/
theorem sync_unbounded_with_schedule :
    (ex_queued "first").callqueue_.length = 1 ∧
    (∃ final, (ex_queued "first").sync ex_once 2 [] = outcome.returned
      { self := final, arriving := [],
        called := [⟨0, "first", ⟨200, "pong"⟩⟩, ⟨1, "second", ⟨200, "pong"⟩⟩] }) ∧
    (ex_queued "again").callqueue_.length = 1 ∧
    (∀ fuel, (ex_queued "again").sync ex_again fuel [] = outcome.unfinished) :=
  ⟨rfl, ⟨_, rfl⟩, rfl, fun fuel => sync_again_unfinished fuel _ "again" ⟨200, "pong"⟩ rfl rfl⟩

/-- A worker that finishes while `sync()` runs: the queue holds one function when `sync()` is
called, the worker of `get("/ping", on_ping)` delivers at the second test of the loop condition,
and `sync()` returns after calling two functions. -/
theorem sync_with_arrival :
    (ex_ping.1.schedule ⟨7, "a", ⟨0, "timeout"⟩⟩).callqueue_.length = 1 ∧
    ∃ final, (ex_ping.1.schedule ⟨7, "a", ⟨0, "timeout"⟩⟩).sync ex_quiet 2 [[], [ex_ping.2]] =
      outcome.returned
        { self := final, arriving := [],
          called := [⟨7, "a", ⟨0, "timeout"⟩⟩, ⟨0, "on_ping", ⟨200, "pong"⟩⟩] } :=
  ⟨rfl, _, rfl⟩

/-- A callback that calls `sync()` from inside the drain: the inner call finds the function still
at the front, calls it again and pops it, and the outer call then reaches `pop_front()` on an
empty list. -/
theorem sync_reentered :
    (ex_queued "outer").sync ex_reenter 3 [] = outcome.undefined :=
  rfl

/-- C8, amended: for every content of the queue and every behaviour of the queued functions in
which none calls `schedule` or `sync` while it runs, `sync()` ends (it returns, or is left by the
exception of a function that throws), and whenever it ends the number of functions it has called
is bounded by the length the queue had when `sync()` was called plus the number of workers that
finish while it runs: by that length alone when no worker finishes during the drain. -/
theorem sync_bounded_without_reentry {Cb : Type} (beh : behaviour Cb) (h : never_reenters beh)
    (c : async_client Cb) (arriving : List (List thread_params)) :
    (∃ after, c.sync beh (c.callqueue_.length + arrivals arriving) arriving
        = outcome.returned after ∨
      c.sync beh (c.callqueue_.length + arrivals arriving) arriving = outcome.threw after) ∧
    (∀ fuel after,
      (c.sync beh fuel arriving = outcome.returned after ∨
        c.sync beh fuel arriving = outcome.threw after) →
      after.called.length ≤ c.callqueue_.length + arrivals arriving) ∧
    (∀ fuel after,
      (c.sync beh fuel [] = outcome.returned after ∨ c.sync beh fuel [] = outcome.threw after) →
      after.called.length ≤ c.callqueue_.length) := by
  have hbound : ∀ (arr : List (List thread_params)) (fuel : Nat) (after : drain Cb),
      (c.sync beh fuel arr = outcome.returned after ∨ c.sync beh fuel arr = outcome.threw after) →
      after.called.length ≤ c.callqueue_.length + arrivals arr := by
    intro arr fuel after hend
    obtain ⟨h1, h2, _, _⟩ := sync_bound beh h fuel { self := c, arriving := arr, called := [] }
    rcases hend with hend | hend
    · simpa using h1 after hend
    · simpa using h2 after hend
  refine ⟨?_, hbound arriving, fun fuel after hend => by simpa [arrivals] using hbound [] fuel after hend⟩
  obtain ⟨_, _, h3, h4⟩ := sync_bound beh h (c.callqueue_.length + arrivals arriving)
    { self := c, arriving := arriving, called := [] }
  cases ho : sync_loop beh (c.callqueue_.length + arrivals arriving)
      { self := c, arriving := arriving, called := [] } with
  | returned after => exact ⟨after, Or.inl ho⟩
  | threw after => exact ⟨after, Or.inr ho⟩
  | undefined => exact absurd ho h3
  | unfinished => exact absurd (h4 ho) (Nat.lt_irrefl _)

/-- Witness of C8, amended: a queue of two functions, the first of which throws. -/
theorem sync_bounded_without_reentry_witness :
    never_reenters ex_bad ∧
    ∃ after, ex_two.sync ex_bad (ex_two.callqueue_.length + arrivals []) [] = outcome.returned after ∨
      ex_two.sync ex_bad (ex_two.callqueue_.length + arrivals []) [] = outcome.threw after :=
  ⟨fun _ _ _ _ hk => absurd hk (List.not_mem_nil _),
    (sync_bounded_without_reentry ex_bad (fun _ _ _ _ hk => absurd hk (List.not_mem_nil _))
      ex_two []).1⟩


/-! ## Sequences of steps -/

theorem run_invariant {Cb : Type} (net : transport) (beh : behaviour Cb) (P : System Cb → Prop)
    (Q : Op Cb → Prop)
    (hstep : ∀ op s t, Q op → P s → step net beh op s = some t → P t) :
    ∀ ops s t, (∀ op ∈ ops, Q op) → P s → run net beh ops s = some t → P t := by
  intro ops
  induction ops with
  | nil =>
    intro s t _ hs h
    simp only [run, Option.some.injEq] at h
    exact h ▸ hs
  | cons op ops ih =>
    intro s t hq hs h
    simp only [run] at h
    cases hst : step net beh op s with
    | none => rw [hst] at h; exact absurd h (by simp)
    | some u =>
      rw [hst] at h
      exact ih u t (fun o ho => hq o (List.mem_cons_of_mem _ ho))
        (hstep op s u (hq op (List.mem_cons_self _ _)) hs hst) h

theorem lookup_fresh {Cb : Type} (l : List (Nat × Cb)) (n : Nat) (h : ∀ e ∈ l, e.1 < n) :
    l.lookup n = none := by
  rw [List.lookup_eq_none_iff]
  intro e he
  have := h e he
  simp only [bne_iff_ne, ne_eq]
  omega

theorem registry_insert_fresh {Cb : Type} (l : List (Nat × Cb)) (n : Nat) (cb : Cb)
    (h : ∀ e ∈ l, e.1 < n) : registry_insert (n, cb) l = l ++ [(n, cb)] := by
  simp [registry_insert, lookup_fresh l n h]

theorem registry_insert_keeps {Cb : Type} (l : List (Nat × Cb)) (entry e : Nat × Cb)
    (he : e ∈ l) : e ∈ registry_insert entry l := by
  unfold registry_insert
  split
  · exact he
  · exact List.mem_append_left _ he

theorem mem_take_drop {α : Type} (l : List α) (i : Nat) (x : α)
    (h : x ∈ l.take i ++ l.drop (i + 1)) : x ∈ l := by
  rcases List.mem_append.mp h with h | h
  · exact List.mem_of_mem_take h
  · exact List.mem_of_mem_drop h

theorem registry_ok_init {Cb : Type} (c0 : client) : registry_ok (System.init c0 : System Cb) := by
  intro c hc
  simp only [System.init, Option.some.injEq] at hc
  subst hc
  exact ⟨fun e he => absurd he (List.not_mem_nil _), fun p hp => absurd hp (List.not_mem_nil _)⟩

theorem step_sync_cases {Cb : Type} (net : transport) (beh : behaviour Cb) (fuel : Nat)
    (s t : System Cb) (h : step net beh (Op.sync fuel) s = some t) :
    ∃ c d, s.mem = some c ∧
      (c.sync beh fuel [] = outcome.returned d ∨ c.sync beh fuel [] = outcome.threw d) ∧
      t = { s with mem := some d.self, invoked := s.invoked ++ d.called } := by
  cases hm : s.mem with
  | none => simp [step, hm] at h
  | some c =>
    cases ho : c.sync beh fuel [] with
    | returned d =>
      simp only [step, hm, ho, Option.some.injEq] at h
      exact ⟨c, d, rfl, Or.inl ho, h.symm⟩
    | threw d =>
      simp only [step, hm, ho, Option.some.injEq] at h
      exact ⟨c, d, rfl, Or.inr ho, h.symm⟩
    | undefined => simp [step, hm, ho] at h
    | unfinished => simp [step, hm, ho] at h

theorem registry_ok_step {Cb : Type} (net : transport) (beh : behaviour Cb) (op : Op Cb)
    (s t : System Cb) (hs : registry_ok s) (h : step net beh op s = some t) : registry_ok t := by
  cases op with
  | issue r cb =>
    cases hm : s.mem with
    | none => simp [step, hm] at h
    | some c =>
      obtain ⟨hkeys, hthreads⟩ := hs c hm
      simp only [step, hm, Option.some.injEq] at h
      subst h
      intro d hd
      simp only [Option.some.injEq] at hd
      subst hd
      rw [issue_client, registry_insert_fresh _ _ _ hkeys]
      refine ⟨?_, ?_⟩
      · intro e he
        rcases List.mem_append.mp he with he | he
        · exact Nat.lt_succ_of_lt (hkeys e he)
        · simp only [List.mem_singleton] at he
          subst he
          exact Nat.lt_succ_self _
      · intro p hp
        simp only [List.lookup_append, Option.isSome_or, Bool.or_eq_true]
        rcases List.mem_append.mp hp with hp | hp
        · exact Or.inl (hthreads p hp)
        · simp only [List.mem_singleton] at hp
          subst hp
          right
          rw [(issue_thread net r cb s.next c).2]
          simp [List.lookup_cons]
  | complete i =>
    cases hp : s.threads[i]? with
    | none => simp [step, hp] at h
    | some p =>
      rcases worker_cases p s.mem with ⟨_, hw⟩ | ⟨self, cb, response, after, hm, _, _, hw, hcb, _⟩
      · simp only [step, hp, hw, Option.some.injEq] at h
        subst h
        intro d hd
        obtain ⟨hkeys, hthreads⟩ := hs d hd
        exact ⟨hkeys, fun q hq => hthreads q (mem_take_drop _ _ _ hq)⟩
      · simp only [step, hp, hw, Option.some.injEq] at h
        subst h
        intro d hd
        simp only [Option.some.injEq] at hd
        subst hd
        obtain ⟨hkeys, hthreads⟩ := hs self hm
        rw [hcb]
        exact ⟨hkeys, fun q hq => hthreads q (mem_take_drop _ _ _ hq)⟩
  | sync fuel =>
    obtain ⟨c, d, hm, hend, rfl⟩ := step_sync_cases net beh fuel s t h
    intro e he
    simp only [Option.some.injEq] at he
    subst he
    rw [sync_callbacks beh fuel c d hend]
    exact hs c hm
  | setcookie value =>
    cases hm : s.mem with
    | none => simp [step, hm] at h
    | some c =>
      simp only [step, hm, Option.some.injEq] at h
      subst h
      intro d hd
      simp only [Option.some.injEq] at hd
      subst hd
      exact hs c hm
  | schedule f =>
    cases hm : s.mem with
    | none => simp [step, hm] at h
    | some c =>
      simp only [step, hm, Option.some.injEq] at h
      subst h
      intro d hd
      simp only [Option.some.injEq] at hd
      subst hd
      exact hs c hm
  | destroy =>
    cases hm : s.mem with
    | none => simp [step, hm] at h
    | some c =>
      simp only [step, hm, Option.some.injEq] at h
      subst h
      intro d hd
      exact absurd hd (by simp)

theorem registry_ok_run {Cb : Type} (net : transport) (beh : behaviour Cb) (c0 : client)
    (ops : List (Op Cb)) (s : System Cb) (h : run net beh ops (System.init c0) = some s) :
    registry_ok s :=
  run_invariant net beh registry_ok (fun _ => True)
    (fun op s t _ hs hst => registry_ok_step net beh op s t hs hst)
    ops _ s (fun _ _ => trivial) (registry_ok_init c0) h

theorem step_registry_mono {Cb : Type} (net : transport) (beh : behaviour Cb) (op : Op Cb)
    (s t : System Cb) (h : step net beh op s = some t) (c d : async_client Cb)
    (hc : s.mem = some c) (hd : t.mem = some d) : ∀ e ∈ c.callbacks_, e ∈ d.callbacks_ := by
  cases op with
  | issue r cb =>
    simp only [step, hc, Option.some.injEq] at h
    subst h
    simp only [Option.some.injEq] at hd
    subst hd
    rw [issue_client]
    exact fun e he => registry_insert_keeps _ _ e he
  | complete i =>
    cases hp : s.threads[i]? with
    | none => simp [step, hp] at h
    | some p =>
      rcases worker_cases p s.mem with ⟨_, hw⟩ | ⟨self, cb, response, after, hm, _, _, hw, hcb, _⟩
      · simp only [step, hp, hw, Option.some.injEq] at h
        subst h
        simp only [hc, Option.some.injEq] at hd
        subst hd
        exact fun e he => he
      · simp only [step, hp, hw, Option.some.injEq] at h
        subst h
        simp only [Option.some.injEq] at hd
        subst hd
        rw [hc, Option.some.injEq] at hm
        subst hm
        rw [hcb]
        exact fun e he => he
  | sync fuel =>
    obtain ⟨c2, d2, hm, hend, rfl⟩ := step_sync_cases net beh fuel s t h
    rw [hc, Option.some.injEq] at hm
    subst hm
    simp only [Option.some.injEq] at hd
    subst hd
    rw [sync_callbacks beh fuel c d2 hend]
    exact fun e he => he
  | setcookie value =>
    simp only [step, hc, Option.some.injEq] at h
    subst h
    simp only [Option.some.injEq] at hd
    subst hd
    exact fun e he => he
  | schedule f =>
    simp only [step, hc, Option.some.injEq] at h
    subst h
    simp only [Option.some.injEq] at hd
    subst hd
    exact fun e he => he
  | destroy =>
    simp only [step, hc, Option.some.injEq] at h
    subst h
    exact absurd hd (by simp)

/-- C9: in every state a client reaches from its constructor by request calls, worker completions,
`sync`, `setcookie`, `schedule` and its own release: the weak pointer of every worker still
running fails to resolve exactly when the client has been destroyed; no step of a client that
exists before and after removes a registry entry; and a request call puts the entry of its
callback into the registry and starts a worker whose weak pointer resolves to that callback. -/
theorem registry_only_grows {Cb : Type} (net : transport) (beh : behaviour Cb) (c0 : client)
    (ops : List (Op Cb)) (s : System Cb) (hrun : run net beh ops (System.init c0) = some s) :
    (∀ p ∈ s.threads, (weak_lock p.cb s.mem = none ↔ s.mem = none)) ∧
    ∀ op t, step net beh op s = some t →
      (∀ c d, s.mem = some c → t.mem = some d → ∀ e ∈ c.callbacks_, e ∈ d.callbacks_) ∧
      ∀ r cb, op = Op.issue r cb →
        ∃ d p, t.mem = some d ∧ (s.next, cb) ∈ d.callbacks_ ∧
          t.threads = s.threads ++ [p] ∧ p.cb = s.next ∧ weak_lock p.cb t.mem = some cb := by
  have hok := registry_ok_run net beh c0 ops s hrun
  refine ⟨?_, ?_⟩
  · intro p hp
    cases hm : s.mem with
    | none => simp [weak_lock]
    | some c =>
      have := (hok c hm).2 p hp
      simp only [weak_lock, reduceCtorEq, iff_false]
      intro hnone
      rw [hnone] at this
      exact absurd this (by simp)
  · intro op t hst
    refine ⟨fun c d hc hd => step_registry_mono net beh op s t hst c d hc hd, ?_⟩
    intro r cb hop
    subst hop
    cases hm : s.mem with
    | none => simp [step, hm] at hst
    | some c =>
      simp only [step, hm, Option.some.injEq] at hst
      subst hst
      have hkeys := (hok c hm).1
      have hreg : (c.issue net r cb s.next).1.callbacks_ = c.callbacks_ ++ [(s.next, cb)] := by
        rw [issue_client, registry_insert_fresh _ _ _ hkeys]
      refine ⟨_, _, rfl, ?_, rfl, (issue_thread net r cb s.next c).2, ?_⟩
      · rw [hreg]
        exact List.mem_append_right _ (List.mem_singleton_self _)
      · simp only [weak_lock]
        rw [hreg, (issue_thread net r cb s.next c).2, List.lookup_append,
          lookup_fresh _ _ hkeys]
        simp [List.lookup_cons]

/-- Witness of C9: the state after `get("/ping", cb)` and `post("/submit", "data", cb)`. -/
theorem registry_only_grows_witness :
    (∃ s, run ex_net ex_quiet [Op.issue (request.get "/ping") "on_ping",
        Op.issue (request.post "/submit" "data") "on_submit"]
        (System.init ⟨"http://host", "sid=1"⟩) = some s ∧
      ∀ p ∈ s.threads, (weak_lock p.cb s.mem = none ↔ s.mem = none)) :=
  ⟨_, rfl, (registry_only_grows ex_net ex_quiet ⟨"http://host", "sid=1"⟩
    [Op.issue (request.get "/ping") "on_ping", Op.issue (request.post "/submit" "data") "on_submit"]
    _ rfl).1⟩

/-! ## Delivery at most once -/

theorem split_at_index {α : Type} (l : List α) (i : Nat) (x : α) (h : l[i]? = some x) :
    l = l.take i ++ x :: l.drop (i + 1) := by
  obtain ⟨hi, hx⟩ := List.getElem?_eq_some_iff.mp h
  rw [← hx, ← List.drop_eq_getElem_cons hi, List.take_append_drop]

theorem nodup_remove (l : List thread_params) (i : Nat) (p : thread_params)
    (h : l[i]? = some p) (hn : (l.map thread_params.cb).Nodup) :
    ((l.take i ++ l.drop (i + 1)).map thread_params.cb).Nodup ∧
    ∀ q ∈ l.take i ++ l.drop (i + 1), q.cb ≠ p.cb := by
  have hl := split_at_index l i p h
  generalize l.take i = l1 at hl ⊢
  generalize l.drop (i + 1) = l2 at hl ⊢
  subst hl
  simp only [List.map_append, List.map_cons] at hn ⊢
  rw [List.nodup_middle, List.nodup_cons] at hn
  refine ⟨hn.2, ?_⟩
  intro q hq hqp
  apply hn.1
  rw [← hqp, ← List.map_append]
  exact List.mem_map_of_mem _ hq

theorem posted_same {Cb : Type} (mem : Option (async_client Cb)) : posted mem mem = [] := by
  cases mem <;> simp [posted]

theorem delivered_ok_init {Cb : Type} (c0 : client) :
    delivered_ok (System.init c0 : System Cb) :=
  ⟨fun _ hp => absurd hp (List.not_mem_nil _), List.nodup_nil,
    fun _ ha => absurd ha (List.not_mem_nil _), List.nodup_nil,
    fun _ hp => absurd hp (List.not_mem_nil _)⟩

theorem pending_ok_init {Cb : Type} (c0 : client) : pending_ok (System.init c0 : System Cb) := by
  refine ⟨[], rfl, ?_⟩
  intro c hc
  simp only [System.init, Option.some.injEq] at hc
  subst hc
  rfl

theorem delivered_ok_step {Cb : Type} (net : transport) (beh : behaviour Cb) (op : Op Cb)
    (s t : System Cb) (hs : delivered_ok s) (h : step net beh op s = some t) :
    delivered_ok t := by
  obtain ⟨h1, h2, h3, h4, h5⟩ := hs
  cases op with
  | issue r cb =>
    cases hm : s.mem with
    | none => simp [step, hm] at h
    | some c =>
      simp only [step, hm, Option.some.injEq] at h
      subst h
      have hcb := (issue_thread net r cb s.next c).2
      refine ⟨?_, ?_, ?_, h4, ?_⟩
      · intro p hp
        rcases List.mem_append.mp hp with hp | hp
        · exact Nat.lt_succ_of_lt (h1 p hp)
        · simp only [List.mem_singleton] at hp
          subst hp
          rw [hcb]
          exact Nat.lt_succ_self _
      · simp only [List.map_append, List.map_cons, List.map_nil, hcb]
        rw [List.nodup_append]
        refine ⟨h2, List.nodup_singleton _, ?_⟩
        intro x hx hx2
        simp only [List.mem_singleton] at hx2
        subst hx2
        obtain ⟨p, hp, hpx⟩ := List.mem_map.mp hx
        have := h1 p hp
        omega
      · exact fun a ha => Nat.lt_succ_of_lt (h3 a ha)
      · intro p hp a ha
        rcases List.mem_append.mp hp with hp | hp
        · exact h5 p hp a ha
        · simp only [List.mem_singleton] at hp
          subst hp
          rw [hcb]
          exact Nat.ne_of_lt (h3 a ha)
  | complete i =>
    cases hp : s.threads[i]? with
    | none => simp [step, hp] at h
    | some p =>
      obtain ⟨hn1, hn2⟩ := nodup_remove s.threads i p hp h2
      have hpmem : p ∈ s.threads := List.getElem?_mem hp
      rcases worker_cases p s.mem with
        ⟨_, hw⟩ | ⟨self, cb, response, after, hm, _, _, hw, _, hqueue⟩
      · simp only [step, hp, hw, Option.some.injEq] at h
        subst h
        simp only [posted_same, List.append_nil]
        exact ⟨fun q hq => h1 q (mem_take_drop _ _ _ hq), hn1, h3, h4,
          fun q hq => h5 q (mem_take_drop _ _ _ hq)⟩
      · simp only [step, hp, hw, Option.some.injEq] at h
        subst h
        have hposted : posted s.mem (some after) = [⟨p.cb, cb, response⟩] := by
          rw [hm]
          simp [posted, hqueue]
        simp only [hposted]
        refine ⟨fun q hq => h1 q (mem_take_drop _ _ _ hq), hn1, ?_, ?_, ?_⟩
        · intro a ha
          rcases List.mem_append.mp ha with ha | ha
          · exact h3 a ha
          · simp only [List.mem_singleton] at ha
            subst ha
            exact h1 p hpmem
        · simp only [List.map_append, List.map_cons, List.map_nil]
          rw [List.nodup_append]
          refine ⟨h4, List.nodup_singleton _, ?_⟩
          intro x hx hx2
          simp only [List.mem_singleton] at hx2
          subst hx2
          obtain ⟨a, ha, hax⟩ := List.mem_map.mp hx
          exact h5 p hpmem a ha hax
        · intro q hq a ha
          rcases List.mem_append.mp ha with ha | ha
          · exact h5 q (mem_take_drop _ _ _ hq) a ha
          · simp only [List.mem_singleton] at ha
            subst ha
            exact fun heq => hn2 q hq heq.symm
  | sync fuel =>
    obtain ⟨c, d, _, _, rfl⟩ := step_sync_cases net beh fuel s t h
    exact ⟨h1, h2, h3, h4, h5⟩
  | setcookie value =>
    cases hm : s.mem with
    | none => simp [step, hm] at h
    | some c =>
      simp only [step, hm, Option.some.injEq] at h
      subst h
      exact ⟨h1, h2, h3, h4, h5⟩
  | schedule f =>
    cases hm : s.mem with
    | none => simp [step, hm] at h
    | some c =>
      simp only [step, hm, Option.some.injEq] at h
      subst h
      exact ⟨h1, h2, h3, h4, h5⟩
  | destroy =>
    cases hm : s.mem with
    | none => simp [step, hm] at h
    | some c =>
      simp only [step, hm, Option.some.injEq] at h
      subst h
      exact ⟨h1, h2, h3, h4, h5⟩

theorem pending_ok_step {Cb : Type} (net : transport) (beh : behaviour Cb) (hq : quiet beh)
    (op : Op Cb) (s t : System Cb) (hop : op.is_schedule = false)
    (hs : pending_ok s) (h : step net beh op s = some t) : pending_ok t := by
  obtain ⟨pending, h6, h7⟩ := hs
  cases op with
  | issue r cb =>
    cases hm : s.mem with
    | none => simp [step, hm] at h
    | some c =>
      simp only [step, hm, Option.some.injEq] at h
      subst h
      refine ⟨pending, h6, ?_⟩
      intro d hd
      simp only [Option.some.injEq] at hd
      subst hd
      rw [issue_client]
      exact h7 c hm
  | complete i =>
    cases hp : s.threads[i]? with
    | none => simp [step, hp] at h
    | some p =>
      rcases worker_cases p s.mem with
        ⟨_, hw⟩ | ⟨self, cb, response, after, hm, _, _, hw, _, hqueue⟩
      · simp only [step, hp, hw, Option.some.injEq] at h
        subst h
        simp only [posted_same, List.append_nil]
        exact ⟨pending, h6, h7⟩
      · simp only [step, hp, hw, Option.some.injEq] at h
        subst h
        have hposted : posted s.mem (some after) = [⟨p.cb, cb, response⟩] := by
          rw [hm]
          simp [posted, hqueue]
        simp only [hposted]
        refine ⟨pending ++ [⟨p.cb, cb, response⟩], ?_, ?_⟩
        · rw [← List.append_assoc, h6]
        · intro d hd
          simp only [Option.some.injEq] at hd
          subst hd
          rw [hqueue, h7 self hm]
  | sync fuel =>
    obtain ⟨c, d, hm, hend, rfl⟩ := step_sync_cases net beh fuel s t h
    obtain ⟨hcalled, hempty⟩ := sync_quiet_ended beh hq fuel c d hend
    refine ⟨[], ?_, ?_⟩
    · simp only [List.append_nil]
      rw [hcalled, h7 c hm, h6]
    · intro e he
      simp only [Option.some.injEq] at he
      subst he
      exact hempty
  | setcookie value =>
    cases hm : s.mem with
    | none => simp [step, hm] at h
    | some c =>
      simp only [step, hm, Option.some.injEq] at h
      subst h
      refine ⟨pending, h6, ?_⟩
      intro d hd
      simp only [Option.some.injEq] at hd
      subst hd
      exact h7 c hm
  | schedule f => exact absurd hop (by simp [Op.is_schedule])
  | destroy =>
    cases hm : s.mem with
    | none => simp [step, hm] at h
    | some c =>
      simp only [step, hm, Option.some.injEq] at h
      subst h
      exact ⟨pending, h6, fun d hd => absurd hd (by simp)⟩

theorem step_invoked_outside_sync {Cb : Type} (net : transport) (beh : behaviour Cb) (op : Op Cb)
    (s t : System Cb) (h : step net beh op s = some t) (hop : op.is_sync = false) :
    t.invoked = s.invoked := by
  cases op with
  | sync fuel => exact absurd hop (by simp [Op.is_sync])
  | complete i =>
    cases hp : s.threads[i]? with
    | none => simp [step, hp] at h
    | some p =>
      cases hw : async_request_thread p s.mem with
      | error e => simp [step, hp, hw] at h
      | ok after =>
        simp only [step, hp, hw, Option.some.injEq] at h
        subst h
        rfl
  | issue r cb =>
    cases hm : s.mem with
    | none => simp [step, hm] at h
    | some c => simp only [step, hm, Option.some.injEq] at h; subst h; rfl
  | setcookie value =>
    cases hm : s.mem with
    | none => simp [step, hm] at h
    | some c => simp only [step, hm, Option.some.injEq] at h; subst h; rfl
  | schedule f =>
    cases hm : s.mem with
    | none => simp [step, hm] at h
    | some c => simp only [step, hm, Option.some.injEq] at h; subst h; rfl
  | destroy =>
    cases hm : s.mem with
    | none => simp [step, hm] at h
    | some c => simp only [step, hm, Option.some.injEq] at h; subst h; rfl

theorem step_issue_frame {Cb : Type} (net : transport) (beh : behaviour Cb) (op : Op Cb)
    (s t : System Cb) (h : step net beh op s = some t) (hop : op.is_issue = true) :
    t.delivered = s.delivered ∧
    ∀ c d, s.mem = some c → t.mem = some d → d.callqueue_ = c.callqueue_ := by
  cases op with
  | issue r cb =>
    cases hm : s.mem with
    | none => simp [step, hm] at h
    | some c =>
      simp only [step, hm, Option.some.injEq] at h
      subst h
      refine ⟨rfl, ?_⟩
      intro c2 d hc hd
      simp only [Option.some.injEq] at hc hd
      subst hc hd
      rw [issue_client]
  | complete i => exact absurd hop (by simp [Op.is_issue])
  | sync fuel => exact absurd hop (by simp [Op.is_issue])
  | setcookie value => exact absurd hop (by simp [Op.is_issue])
  | schedule f => exact absurd hop (by simp [Op.is_issue])
  | destroy => exact absurd hop (by simp [Op.is_issue])

/-- C4 as stated fails. `get("/ping", bad)` is issued, its worker completes, and `sync()` is
called twice; the callback `bad` throws each time it is called. The first `sync()` is left by the
exception with the function still at the front of the queue, and the second `sync()` calls it
again: the one registered callback, at registry address 0, has been invoked twice. -/
theorem throwing_callback_invoked_twice :
    ∃ s, run ex_net ex_bad [Op.issue (request.get "/ping") "bad", Op.complete 0, Op.sync 1,
        Op.sync 1] (System.init ⟨"http://host", "sid=1"⟩) = some s ∧
      s.delivered = [⟨0, "bad", ⟨200, "pong"⟩⟩] ∧
      s.invoked = [⟨0, "bad", ⟨200, "pong"⟩⟩, ⟨0, "bad", ⟨200, "pong"⟩⟩] ∧
      ¬ (s.invoked.map Action.target).Nodup :=
  ⟨_, rfl, rfl, rfl, by decide⟩

/-- C4, amended: in every sequence of request calls, worker completions, `sync` calls, `setcookie`
calls (and the release of the client), whatever the callbacks do: no registry address is
delivered to the queue twice, the list of invoked functions changes in no step other than a
`sync`, and a request call leaves the list of invoked functions, the list of delivered functions
and the queue as they were. When every callback returns normally and calls neither `schedule`
nor `sync` while it runs, no registry address is invoked twice and only delivered functions are
invoked. -/
theorem callbacks_at_most_once {Cb : Type} (net : transport) (beh : behaviour Cb)
    (c0 : client) (ops : List (Op Cb)) (s : System Cb)
    (hops : ∀ op ∈ ops, op.is_schedule = false)
    (hrun : run net beh ops (System.init c0) = some s) :
    (s.delivered.map Action.target).Nodup ∧
    (quiet beh → (s.invoked.map Action.target).Nodup ∧ ∀ a ∈ s.invoked, a ∈ s.delivered) ∧
    ∀ op t, step net beh op s = some t →
      (op.is_sync = false → t.invoked = s.invoked) ∧
      (op.is_issue = true → t.invoked = s.invoked ∧ t.delivered = s.delivered ∧
        ∀ c d, s.mem = some c → t.mem = some d → d.callqueue_ = c.callqueue_) := by
  have hdel : delivered_ok s :=
    run_invariant net beh delivered_ok (fun _ => True)
      (fun op s t _ hs hst => delivered_ok_step net beh op s t hs hst)
      ops _ s (fun _ _ => trivial) (delivered_ok_init c0) hrun
  obtain ⟨_, _, _, h4, _⟩ := hdel
  refine ⟨h4, ?_, ?_⟩
  · intro hq
    obtain ⟨pending, h6, _⟩ : pending_ok s :=
      run_invariant net beh pending_ok (fun op => op.is_schedule = false)
        (fun op s t hop hs hst => pending_ok_step net beh hq op s t hop hs hst)
        ops _ s hops (pending_ok_init c0) hrun
    constructor
    · rw [← h6, List.map_append] at h4
      exact (List.nodup_append.mp h4).1
    · intro a ha
      rw [← h6]
      exact List.mem_append_left _ ha
  · intro op t hst
    refine ⟨step_invoked_outside_sync net beh op s t hst, ?_⟩
    intro hop
    have hns : op.is_sync = false := by cases op <;> simp_all [Op.is_sync, Op.is_issue]
    exact ⟨step_invoked_outside_sync net beh op s t hst hns, step_issue_frame net beh op s t hst hop⟩

/-- Witness of C4, amended: `get("/ping", cb)`, the worker completes, `sync()`. -/
theorem callbacks_at_most_once_witness :
    quiet ex_quiet ∧
    ∃ s, run ex_net ex_quiet [Op.issue (request.get "/ping") "on_ping", Op.complete 0, Op.sync 1]
        (System.init ⟨"http://host", "sid=1"⟩) = some s ∧
      (s.delivered.map Action.target).Nodup ∧ (s.invoked.map Action.target).Nodup :=
  ⟨fun _ _ _ => ⟨rfl, fun _ hk => absurd hk (List.not_mem_nil _)⟩, _, rfl,
    (callbacks_at_most_once ex_net ex_quiet ⟨"http://host", "sid=1"⟩
      [Op.issue (request.get "/ping") "on_ping", Op.complete 0, Op.sync 1] _
      (by simp [Op.is_schedule]) rfl).1,
    ((callbacks_at_most_once ex_net ex_quiet ⟨"http://host", "sid=1"⟩
      [Op.issue (request.get "/ping") "on_ping", Op.complete 0, Op.sync 1] _
      (by simp [Op.is_schedule]) rfl).2.1
      (fun _ _ _ => ⟨rfl, fun _ hk => absurd hk (List.not_mem_nil _)⟩)).1⟩

/-! ## Order of the callbacks -/

theorem last_of_two {α : Type} (l : List α) (a b : α) :
    ((l ++ [a]) ++ [b])[l.length + 1]? = some b := by
  rw [List.getElem?_append_right (by simp)]
  simp

theorem remove_last_of_two {α : Type} (l : List α) (a b : α) :
    ((l ++ [a]) ++ [b]).take (l.length + 1) ++ ((l ++ [a]) ++ [b]).drop (l.length + 1 + 1)
      = l ++ [a] := by
  have h1 : (l ++ [a]).length = l.length + 1 := by simp
  rw [← h1, List.take_left']
  · rw [show (l ++ [a]).length + 1 = ((l ++ [a]) ++ [b]).length by simp, List.drop_length]
    simp
  · rfl

theorem last_of_one {α : Type} (l : List α) (a : α) : (l ++ [a])[l.length]? = some a := by
  rw [List.getElem?_append_right (Nat.le_refl _)]
  simp

theorem step_issue_facts {Cb : Type} (net : transport) (beh : behaviour Cb) (r : request) (cb : Cb)
    (s : System Cb) (c : async_client Cb) (hm : s.mem = some c) :
    ∃ t, step net beh (Op.issue r cb) s = some t ∧ t.mem = some (c.issue net r cb s.next).1 ∧
      t.threads = s.threads ++ [(c.issue net r cb s.next).2] ∧ t.next = s.next + 1 ∧
      t.invoked = s.invoked := by
  simp only [step, hm]
  exact ⟨_, rfl, rfl, rfl, rfl, rfl⟩

theorem step_complete_facts {Cb : Type} (net : transport) (beh : behaviour Cb) (i : Nat)
    (s : System Cb) (c : async_client Cb) (p : thread_params) (cb : Cb)
    (hp : s.threads[i]? = some p) (hm : s.mem = some c)
    (hcb : c.callbacks_.lookup p.cb = some cb) :
    ∃ t after response, step net beh (Op.complete i) s = some t ∧ t.mem = some after ∧
      after.callbacks_ = c.callbacks_ ∧
      after.callqueue_ = c.callqueue_ ++ [⟨p.cb, cb, response⟩] ∧
      t.threads = s.threads.take i ++ s.threads.drop (i + 1) ∧ t.invoked = s.invoked ∧
      try_request (p.func p.handle).2 = Except.ok response := by
  rcases worker_cases p s.mem with ⟨hdead, _⟩ | ⟨self, cb2, response, after, hm2, hl, htry, hw, hreg, hqueue⟩
  · rw [hm] at hdead
    simp only [weak_lock] at hdead
    rw [hcb] at hdead
    exact absurd hdead (by simp)
  · rw [hm] at hm2 hl
    simp only [Option.some.injEq] at hm2
    subst hm2
    simp only [weak_lock, hcb, Option.some.injEq] at hl
    subst hl
    simp only [step, hp, hw]
    exact ⟨_, after, response, rfl, rfl, hreg, hqueue, rfl, rfl, htry⟩

theorem step_sync_facts {Cb : Type} (net : transport) (beh : behaviour Cb)
    (hq : quiet beh) (fuel : Nat) (s : System Cb) (c : async_client Cb)
    (hm : s.mem = some c) (hfuel : c.callqueue_.length ≤ fuel) :
    ∃ t, step net beh (Op.sync fuel) s = some t ∧ t.invoked = s.invoked ++ c.callqueue_ := by
  obtain ⟨after, hrun, hcalled, _⟩ := sync_quiet beh hq fuel c hfuel
  simp only [step, hm, hrun]
  refine ⟨_, rfl, ?_⟩
  simp only [hcalled]

theorem lookup_first_of_two {Cb : Type} (l : List (Nat × Cb)) (n : Nat) (a b : Cb)
    (h : ∀ e ∈ l, e.1 < n) : ((l ++ [(n, a)]) ++ [(n + 1, b)]).lookup n = some a := by
  rw [List.lookup_append, List.lookup_append, lookup_fresh l n h]
  simp [List.lookup_cons]

theorem lookup_second_of_two {Cb : Type} (l : List (Nat × Cb)) (n : Nat) (a b : Cb)
    (h : ∀ e ∈ l, e.1 < n) : ((l ++ [(n, a)]) ++ [(n + 1, b)]).lookup (n + 1) = some b := by
  have hne : (n + 1 == n) = false := by simp
  rw [List.lookup_append, List.lookup_append,
    lookup_fresh l (n + 1) (fun e he => Nat.lt_succ_of_lt (h e he))]
  simp [List.lookup_cons, hne]

/-- C7: from any state a client has reached in which its queue is empty, two requests A and B are
issued in that order, the worker of B completes, then the worker of A, then `sync()` is called
once (callbacks that return and call neither `schedule` nor `sync`): both callbacks resolve, and `sync()` calls the
function bound to the callback of B first and the function bound to the callback of A second. -/
theorem completion_order_decides {Cb : Type} (net : transport) (beh : behaviour Cb)
    (hq : quiet beh) (c0 : client) (ops : List (Op Cb)) (s : System Cb)
    (c : async_client Cb) (rA rB : request) (cbA cbB : Cb) (fuel : Nat)
    (hrun : run net beh ops (System.init c0) = some s) (hm : s.mem = some c)
    (hempty : c.callqueue_ = []) (hfuel : 2 ≤ fuel) :
    ∃ t fA fB,
      run net beh [Op.issue rA cbA, Op.issue rB cbB, Op.complete (s.threads.length + 1),
        Op.complete s.threads.length, Op.sync fuel] s = some t ∧
      fA.target = s.next ∧ fA.cb = cbA ∧ fB.target = s.next + 1 ∧ fB.cb = cbB ∧
      t.invoked = s.invoked ++ [fB, fA] := by
  have hkeys := (registry_ok_run net beh c0 ops s hrun c hm).1
  obtain ⟨s1, hs1, hm1, ht1, hn1, hi1⟩ := step_issue_facts net beh rA cbA s c hm
  obtain ⟨s2, hs2, hm2, ht2, hn2, hi2⟩ :=
    step_issue_facts net beh rB cbB s1 (c.issue net rA cbA s.next).1 hm1
  rw [hn1] at hm2 ht2
  rw [ht1] at ht2
  have hreg1 : (c.issue net rA cbA s.next).1.callbacks_ = c.callbacks_ ++ [(s.next, cbA)] := by
    rw [issue_client, registry_insert_fresh _ _ _ hkeys]
  have hkeys1 : ∀ e ∈ (c.issue net rA cbA s.next).1.callbacks_, e.1 < s.next + 1 := by
    rw [hreg1]
    intro e he
    rcases List.mem_append.mp he with he | he
    · exact Nat.lt_succ_of_lt (hkeys e he)
    · simp only [List.mem_singleton] at he
      subst he
      exact Nat.lt_succ_self _
  have hreg2 : ((c.issue net rA cbA s.next).1.issue net rB cbB (s.next + 1)).1.callbacks_
      = (c.callbacks_ ++ [(s.next, cbA)]) ++ [(s.next + 1, cbB)] := by
    rw [issue_client, registry_insert_fresh _ _ _ hkeys1, hreg1]
  have hq1 : (c.issue net rA cbA s.next).1.callqueue_ = [] := by rw [issue_client]; exact hempty
  have hq2 : ((c.issue net rA cbA s.next).1.issue net rB cbB (s.next + 1)).1.callqueue_ = [] := by
    rw [issue_client]; exact hq1
  have hcbA := (issue_thread net rA cbA s.next c).2
  have hcbB := (issue_thread net rB cbB (s.next + 1) (c.issue net rA cbA s.next).1).2
  have hlookB : ((c.issue net rA cbA s.next).1.issue net rB cbB (s.next + 1)).1.callbacks_.lookup
      ((c.issue net rA cbA s.next).1.issue net rB cbB (s.next + 1)).2.cb = some cbB := by
    rw [hreg2, hcbB]
    exact lookup_second_of_two _ _ _ _ hkeys
  have hpB : s2.threads[s.threads.length + 1]? =
      some ((c.issue net rA cbA s.next).1.issue net rB cbB (s.next + 1)).2 := by
    rw [ht2]; exact last_of_two _ _ _
  obtain ⟨s3, c3, respB, hs3, hm3, hreg3, hq3, ht3, hi3, _⟩ :=
    step_complete_facts net beh _ s2 _ _ cbB hpB hm2 hlookB
  have hthreads3 : s3.threads = s.threads ++ [(c.issue net rA cbA s.next).2] := by
    rw [ht3, ht2]; exact remove_last_of_two _ _ _
  have hpA : s3.threads[s.threads.length]? = some (c.issue net rA cbA s.next).2 := by
    rw [hthreads3]; exact last_of_one _ _
  have hlookA : c3.callbacks_.lookup (c.issue net rA cbA s.next).2.cb = some cbA := by
    rw [hreg3, hreg2, hcbA]
    exact lookup_first_of_two _ _ _ _ hkeys
  obtain ⟨s4, c4, respA, hs4, hm4, _, hq4, _, hi4, _⟩ :=
    step_complete_facts net beh _ s3 c3 _ cbA hpA hm3 hlookA
  rw [hq3, hq2, hcbA, hcbB, List.nil_append] at hq4
  obtain ⟨t, hst, hit⟩ := step_sync_facts net beh hq fuel s4 c4 hm4 (by rw [hq4]; simpa using hfuel)
  refine ⟨t, ⟨s.next, cbA, respA⟩, ⟨s.next + 1, cbB, respB⟩, ?_, rfl, rfl, rfl, rfl, ?_⟩
  · simp only [run, hs1, hs2, hs3, hs4, hst]
  · rw [hit, hi4, hi3, hi2, hi1, hq4]
    rfl

/-- Witness of C7: `get("/ping", on_ping)` then `post("/submit", "data", on_submit)`; the `post`
fails to connect first, the `get` is answered afterwards. -/
theorem completion_order_decides_witness :
    quiet ex_quiet ∧
    ∃ t fA fB,
      run ex_net ex_quiet [Op.issue (request.get "/ping") "on_ping",
        Op.issue (request.post "/submit" "data") "on_submit", Op.complete 1, Op.complete 0,
        Op.sync 2] (System.init ⟨"http://host", "sid=1"⟩) = some t ∧
      fA.target = 0 ∧ fA.cb = "on_ping" ∧ fB.target = 1 ∧ fB.cb = "on_submit" ∧
      t.invoked = [fB, fA] :=
  ⟨fun _ _ _ => ⟨rfl, fun _ hk => absurd hk (List.not_mem_nil _)⟩,
    completion_order_decides ex_net ex_quiet (fun _ _ _ => ⟨rfl, fun _ hk => absurd hk (List.not_mem_nil _)⟩)
      ⟨"http://host", "sid=1"⟩ [] (System.init ⟨"http://host", "sid=1"⟩)
      (async_client.new ⟨"http://host", "sid=1"⟩) (request.get "/ping")
      (request.post "/submit" "data") "on_ping" "on_submit" 2 rfl rfl rfl (by decide)⟩

end hurl
